import Mathlib

/-!
Verification of the two scripts of the papers repository
(scripts/extract_section.py and scripts/convert_word_html.py) against their
natural-language specification.

Python strings are modelled as List Char.  Each regular expression the
scripts use is embedded as an executable matcher whose semantics follows the
backtracking behaviour of the Python re module for that concrete pattern;
every matcher carries a comment naming the pattern it embeds.  Python
whitespace handling (str.strip, the regex class for whitespace) is modelled
over the ASCII whitespace characters, and the re.IGNORECASE flag used by
find_section is modelled with ASCII lower-casing, which agrees with Python
on the ASCII and CJK inputs this program works with.
-/

/-- Characters treated as whitespace by str.strip() and the whitespace class,
restricted to ASCII (space, tab, newline, carriage return, vertical tab,
form feed). -/
def pyIsSpace (c : Char) : Bool :=
  c = ' ' || c = '\t' || c = '\n' || c = '\r' || c = '\x0b' || c = '\x0c'

/-- Drop trailing whitespace, i.e. the right half of str.strip(). -/
def dropTrailWs (s : List Char) : List Char :=
  ((s.reverse).dropWhile pyIsSpace).reverse

/-- Python str.strip(): drop leading and trailing whitespace. -/
def pyStrip (s : List Char) : List Char :=
  dropTrailWs (s.dropWhile pyIsSpace)

/-- Helper for collapseWs: the Bool records whether the previous character
was whitespace (so the run has already emitted its single space). -/
def collapseWsAux : Bool → List Char → List Char
  | _, [] => []
  | prevWs, c :: r =>
    if pyIsSpace c then
      if prevWs then collapseWsAux true r else ' ' :: collapseWsAux true r
    else c :: collapseWsAux false r

/-- Python re.sub with a one-or-more-whitespace pattern replaced by a single
space: every maximal whitespace run becomes one space character. -/
def collapseWs (s : List Char) : List Char :=
  collapseWsAux false s

/-- Python re.sub removing every occurrence of two consecutive asterisks
(the Markdown bold marker), scanning left to right without overlap. -/
def removeBoldPairs : List Char → List Char
  | [] => []
  | [c] => [c]
  | c :: d :: r =>
    if c = '*' ∧ d = '*' then removeBoldPairs r
    else c :: removeBoldPairs (d :: r)

/-- Scanner for the output of removeBoldPairs: true when the list contains
no two consecutive asterisks. -/
def noDoubleStar : List Char → Bool
  | [] => true
  | [_] => true
  | c :: d :: r => !(c = '*' && d = '*') && noDoubleStar (d :: r)

/-- Python substring containment (the in operator on str), case sensitive. -/
def strContains (needle : List Char) : List Char → Bool
  | [] => needle.isPrefixOf []
  | c :: t => needle.isPrefixOf (c :: t) || strContains needle t

/-- Case-insensitive character equality, modelling re.IGNORECASE by ASCII
lower-casing. -/
def ciEq (a b : Char) : Bool := a.toLower = b.toLower

/-- Case-insensitive version of isPrefixOf. -/
def ciIsPrefixOf : List Char → List Char → Bool
  | [], _ => true
  | _ :: _, [] => false
  | a :: t, b :: s => ciEq a b && ciIsPrefixOf t s

/-- Case-insensitive substring containment. -/
def ciContains (needle : List Char) : List Char → Bool
  | [] => ciIsPrefixOf needle []
  | c :: t => ciIsPrefixOf needle (c :: t) || ciContains needle t

/-- Split a character list at every occurrence of a separator character,
the model of Python str.split for a single-character separator.  The result
is always non-empty and the separator occurs in no part. -/
def splitOnChar (sep : Char) : List Char → List (List Char)
  | [] => [[]]
  | c :: r =>
    if c = sep then [] :: splitOnChar sep r
    else
      match splitOnChar sep r with
      | [] => [[c]]
      | h :: t => (c :: h) :: t

/-- Join parts with a separator character, the model of Python
sep.join(parts); inverse of splitOnChar. -/
def joinChar (sep : Char) : List (List Char) → List Char
  | [] => []
  | [x] => x
  | x :: y :: xs => x ++ sep :: joinChar sep (y :: xs)

/-- Split a document into its lines, Python content.split with a newline
separator. -/
def splitNL (s : List Char) : List (List Char) := splitOnChar '\n' s

/-- Join lines back with newlines. -/
def joinNL (ls : List (List Char)) : List Char := joinChar '\n' ls

/-- Index of the first element satisfying p, the model of the first-match
line scans in find_section. -/
def firstIdx (p : List Char → Bool) : List (List Char) → Option Nat
  | [] => none
  | l :: ls => if p l then some 0 else (firstIdx p ls).map (· + 1)

/-- Length of the leading run of hash characters; the Python level
computation matches a leading one-or-more-hashes group, which fails (level
zero here) exactly when the line does not start with a hash. -/
def leadingHashes : List Char → Nat
  | '#' :: r => leadingHashes r + 1
  | _ => 0

/-- Matcher for a leading one-or-more-hashes atom followed by a
continuation matcher, with the backtracking of the Python engine: after
each hash the continuation may start, or further hashes may be consumed. -/
def matchHashPlus (f : List Char → Bool) : List Char → Bool
  | c :: r => c = '#' && (f r || matchHashPlus f r)
  | [] => false

/-- Matcher for a whitespace-star atom followed by a continuation matcher,
with backtracking over how many whitespace characters are consumed. -/
def matchWsStar (f : List Char → Bool) : List Char → Bool
  | [] => f []
  | c :: r => f (c :: r) || (pyIsSpace c && matchWsStar f r)

/-- Matcher for a literal (case-insensitively) followed by optional
whitespace and the end of the string. -/
def matchLitWsEnd (t : List Char) (r : List Char) : Bool :=
  ciIsPrefixOf t r && (r.drop t.length).all pyIsSpace

/-- Drop everything up to and including the first (case-insensitive)
occurrence of t; none when t does not occur.  Taking the leftmost
occurrence is complete for the ordered-substring searches below because all
occurrences of t have the same length. -/
def dropAfterFirstCi (t : List Char) : List Char → Option (List Char)
  | [] => if ciIsPrefixOf t [] then some [] else none
  | c :: r =>
    if ciIsPrefixOf t (c :: r) then some ((c :: r).drop t.length)
    else dropAfterFirstCi t r

/-- True when the given needles occur in order (each strictly after the end
of the previous one), the semantics of a dot-star separated sequence of
literals in a regex. -/
def ciSeqContains : List (List Char) → List Char → Bool
  | [], _ => true
  | t :: ts, s =>
    match dropAfterFirstCi t s with
    | some r => ciSeqContains ts r
    | none => false

/-- Pattern 1 of find_section: a heading line consisting of hashes,
optional whitespace, exactly the (escaped) section title, optional
whitespace, end of line; IGNORECASE. -/
def fsPat1 (title : List Char) (line : List Char) : Bool :=
  matchHashPlus (matchWsStar (matchLitWsEnd title)) line

/-- Pattern 2 of find_section: a heading line whose text contains the title
somewhere after the leading hashes (hashes, whitespace-star, dot-star,
title, dot-star, end). -/
def fsPat2 (title : List Char) (line : List Char) : Bool :=
  matchHashPlus (matchWsStar (ciContains title)) line

/-- The five keyword fragments of pattern 3 of find_section. -/
def fsPat3Kws : List (List Char) :=
  ["复杂".toList, "自然".toList, "过程".toList, "机理".toList, "揭示".toList]

/-- Pattern 3 of find_section: a heading line containing the five fixed
title fragments in order, separated by anything. -/
def fsPat3 (line : List Char) : Bool :=
  matchHashPlus (matchWsStar (ciSeqContains fsPat3Kws)) line

/-- Pattern 4 of find_section: any line containing the title
(dot-star, title, dot-star — an unanchored containment test). -/
def fsPat4 (title : List Char) (line : List Char) : Bool :=
  ciContains title line

/-- Continuation of isHeaderLine after the first hash: more hashes, then one
whitespace character. -/
def headerRest : List Char → Bool
  | [] => false
  | c :: r => pyIsSpace c || (c = '#' && headerRest r)

/-- Match of a leading hashes-then-whitespace pattern (a header line test),
as applied by find_section to detect heading lines. -/
def isHeaderLine : List Char → Bool
  | '#' :: r => headerRest r
  | _ => false

/-- The fixed keyword list of the find_section fallback scan. -/
def complexKeywords : List (List Char) :=
  ["复杂".toList, "自然过程".toList, "机理".toList, "揭示".toList,
   "地幔".toList, "地震".toList, "流体".toList, "火山".toList]

/-- State of the find_section fallback loop over lines: the blocks already
collected as potential sections, the block currently being accumulated, and
its header line. -/
structure FBState where
  potential : List (List (List Char))
  current : List (List Char)
  header : Option (List Char)

/-- Whether a block (joined by newlines) contains one of the fallback
keywords, the membership test of the fallback loop. -/
def blockHasKeyword (block : List (List Char)) : Bool :=
  complexKeywords.any (fun k => strContains k (joinNL block))

/-- One step of the find_section fallback loop: a header line closes the
current block (recording it when non-empty and keyword-bearing) and starts
a new block; any other line extends the current block. -/
def fbStep (st : FBState) (line : List Char) : FBState :=
  if isHeaderLine line then
    let st1 :=
      if st.current ≠ [] ∧ blockHasKeyword st.current then
        { st with potential := st.potential ++ [st.current] }
      else st
    { st1 with current := [line], header := some line }
  else { st with current := st.current ++ [line] }

/-- The find_section fallback: partition the document into header-delimited
blocks and return the first non-empty block containing one of the fixed
keywords, joined back into one string; none when no block qualifies. -/
def fallbackSearch (lines : List (List Char)) : Option (List Char) :=
  let st := lines.foldl fbStep ⟨[], [], none⟩
  let pot :=
    if st.current ≠ [] ∧ blockHasKeyword st.current then
      st.potential ++ [st.current]
    else st.potential
  pot.head?.map joinNL

/-- Index of the section start: the four patterns are tried in order, each
over all stripped lines, and the first pattern with a matching line wins
(with the least matching index). -/
def sectionStart (title : List Char) (stripped : List (List Char)) : Option Nat :=
  match firstIdx (fsPat1 title) stripped with
  | some i => some i
  | none =>
    match firstIdx (fsPat2 title) stripped with
    | some i => some i
    | none =>
      match firstIdx fsPat3 stripped with
      | some i => some i
      | none => firstIdx (fsPat4 title) stripped

/-- Predicate on a stripped line that ends a section started at the given
level: a header line whose hash count is at most the start level. -/
def endsSection (lvl : Nat) (l : List Char) : Bool :=
  isHeaderLine l && leadingHashes l ≤ lvl

/-- Index of the section end: the first line after the start whose stripped
text is a header of level at most the start level, or the number of lines
when there is none. -/
def sectionEnd (stripped : List (List Char)) (start lvl : Nat) : Nat :=
  match firstIdx (endsSection lvl) (stripped.drop (start + 1)) with
  | some k => start + 1 + k
  | none => stripped.length

/-- Embedding of find_section of scripts/extract_section.py.  The result is
in Except because the Python start-level computation calls .group on a
possibly-failed match of a leading-hashes pattern against the unstripped
matched line: when that line does not begin with a hash the call raises
AttributeError, modelled as the error case.  A successful run returns the
optional section text exactly as the Python function does. -/
def find_section (content title : List Char) : Except Unit (Option (List Char)) :=
  let lines := splitNL content
  let stripped := lines.map pyStrip
  match sectionStart title stripped with
  | none => Except.ok (fallbackSearch lines)
  | some s =>
    let lvl := leadingHashes (lines.getD s [])
    if lvl = 0 then Except.error ()
    else
      Except.ok (some (joinNL ((lines.drop s).take (sectionEnd stripped s lvl - s))))

/-- Embedding of the section choice made by main: a section found by
find_section is used as is, a run where find_section found nothing falls
back to the whole document, and a raising run propagates the error. -/
def located_section (content title : List Char) : Except Unit (List Char) :=
  match find_section content title with
  | Except.error e => Except.error e
  | Except.ok (some sec) => Except.ok sec
  | Except.ok none => Except.ok content

/-- Decidable equality for the Except results of find_section, used by the
concrete evaluations below. -/
instance exceptDecEq {ε α : Type} [DecidableEq ε] [DecidableEq α] :
    DecidableEq (Except ε α)
  | Except.ok a, Except.ok b =>
    if h : a = b then isTrue (by rw [h]) else isFalse (by simp [h])
  | Except.error a, Except.error b =>
    if h : a = b then isTrue (by rw [h]) else isFalse (by simp [h])
  | Except.ok _, Except.error _ => isFalse (by simp)
  | Except.error _, Except.ok _ => isFalse (by simp)

example : find_section "# A\nx\n## B\ny\n# C\nz".toList "A".toList =
    Except.ok (some "# A\nx\n## B\ny".toList) := by decide

example : find_section "text 地幔 more\n# H\nrest".toList "missing".toList =
    Except.ok (some "text 地幔 more".toList) := by decide

example : find_section "nothing here".toList "absent".toList = Except.ok none := by decide

example : find_section "复杂自然过程机理揭示".toList "复杂自然过程机理揭示".toList =
    Except.error () := by decide

/-!
RowSplitter: extract_papers_from_section of scripts/extract_section.py.
-/

/-- Matcher for the anchored link pattern of extract_papers_from_section:
an opening bracket, a non-empty bracket-free link text, a closing bracket,
an opening parenthesis, a non-empty parenthesis-free target, a closing
parenthesis; anything may follow.  Returns the two captured groups. -/
def linkMatch : List Char → Option (List Char × List Char)
  | '[' :: r =>
    let t := r.takeWhile (fun c => c ≠ ']')
    if t = [] then none
    else
      match r.drop t.length with
      | ']' :: '(' :: r2 =>
        let u := r2.takeWhile (fun c => c ≠ ')')
        if u = [] then none
        else
          match r2.drop u.length with
          | ')' :: _ => some (t, u)
          | _ => none
      | _ => none
  | _ => none

/-- The table-separator marker skipped by the row loop. -/
def sepMarker : List Char := "---|".toList

/-- The bolded header-label marker skipped by the row loop. -/
def headerMarker : List Char := "**文章**".toList

/-- Skip test of the row loop: empty after stripping, or starting with the
table-separator marker, or starting with the bolded header label. -/
def rowSkipped (t : List Char) : Bool :=
  t.isEmpty || sepMarker.isPrefixOf t || headerMarker.isPrefixOf t

/-!
FieldExtractor: extract_table_cells_from_line of scripts/extract_section.py.
-/

/-- The five positional table cells extracted from a row. -/
structure TableCells where
  core_problem : List Char
  data_source : List Char
  data_mining_methods : List Char
  conclusion : List Char
  summary : List Char
deriving DecidableEq

/-- Embedding of the delimiter split of extract_table_cells_from_line.  The
lookahead in the Python pattern is satisfiable at every position, so the
split separates the line at every pipe, absorbing the whitespace adjacent
to each pipe: the first part loses trailing whitespace, middle parts are
stripped on both sides, the last part loses leading whitespace, and a line
without pipes is returned unchanged. -/
def pipeTail : List (List Char) → List (List Char)
  | [] => []
  | [y] => [y.dropWhile pyIsSpace]
  | y :: z :: ys => pyStrip y :: pipeTail (z :: ys)

/-- Split of a row into pipe-delimited parts; see pipeTail for the
whitespace treatment around each delimiter. -/
def pySplitPipe (s : List Char) : List (List Char) :=
  match splitOnChar '|' s with
  | [] => []
  | [x] => [x]
  | x :: y :: xs => dropTrailWs x :: pipeTail (y :: xs)

/-- Extraction of the lazily-matched group of the fallback field patterns,
given the text between the label (or second delimiter) and the next pipe or
the end of the row: a segment with visible content yields its stripped
text, an all-whitespace non-empty segment yields its final whitespace
character (the lazy group backtracks to a single character), and an empty
segment fails the match at this position. -/
def lazyGroup (T : List Char) : Option (List Char) :=
  if T.any (fun c => !(pyIsSpace c)) then some (pyStrip T)
  else
    match T.getLast? with
    | some c => some [c]
    | none => none

/-- Attempt of the first problem fallback pattern at one position: a
fullwidth-parenthesised number, then a pipe-free stretch and a pipe, then
the lazy group before a second pipe (required by the lookahead). -/
def datePipeAttempt : List Char → Option (List Char)
  | '（' :: r =>
    let ds := r.takeWhile Char.isDigit
    if ds = [] then none
    else
      match r.drop ds.length with
      | '）' :: r3 =>
        let seg1 := r3.takeWhile (fun c => c ≠ '|')
        (match r3.drop seg1.length with
         | '|' :: r4 =>
           let T := r4.takeWhile (fun c => c ≠ '|')
           (match r4.drop T.length with
            | '|' :: _ => lazyGroup T
            | _ => none)
         | _ => none)
      | _ => none
  | _ => none

/-- Left-to-right search with the first problem fallback pattern. -/
def datePipeSearch : List Char → Option (List Char)
  | [] => datePipeAttempt []
  | c :: r =>
    match datePipeAttempt (c :: r) with
    | some g => some g
    | none => datePipeSearch r

/-- Attempt of a bold-span pattern at one position: two asterisks, an
asterisk-free span containing one of the keywords, two asterisks; the span
is the captured group. -/
def boldKwAttempt (kws : List (List Char)) : List Char → Option (List Char)
  | '*' :: '*' :: r =>
    let g := r.takeWhile (fun c => c ≠ '*')
    (match r.drop g.length with
     | '*' :: '*' :: _ =>
       if kws.any (fun k => strContains k g) then some g else none
     | _ => none)
  | _ => none

/-- Left-to-right search with a bold-span keyword pattern. -/
def boldKwSearch (kws : List (List Char)) : List Char → Option (List Char)
  | [] => boldKwAttempt kws []
  | c :: r =>
    match boldKwAttempt kws (c :: r) with
    | some g => some g
    | none => boldKwSearch kws r

/-- Keywords of the second problem fallback pattern. -/
def problemKws : List (List Char) := ["问题".toList, "原因".toList, "机制".toList]

/-- The problem fallback of extract_table_cells_from_line: the two patterns
are tried in order and the first match sets the stripped group. -/
def problemFallback (line : List Char) : List Char :=
  match datePipeSearch line with
  | some g => pyStrip g
  | none =>
    match boldKwSearch problemKws line with
    | some g => pyStrip g
    | none => []

/-- Keywords of the bold method findall pattern. -/
def methodKwsBold : List (List Char) :=
  ["方法".toList, "分析".toList, "模型".toList, "算法".toList]

/-- Keywords (alternation, in order) of the technical-term findall
pattern. -/
def methodKwsTech : List (List Char) :=
  ["机器学习".toList, "深度学习".toList, "数据挖掘".toList, "统计分析".toList]

/-- Attempt of the bold method findall pattern at one position: a bold span
whose asterisk-free content holds a method keyword, followed by a pipe-free
tail; the whole match is the group, and the scan resumes after it. -/
def findallBoldMethodAttempt : List Char → Option (List Char × List Char)
  | '*' :: '*' :: r =>
    let g := r.takeWhile (fun c => c ≠ '*')
    (match r.drop g.length with
     | '*' :: '*' :: r2 =>
       if methodKwsBold.any (fun k => strContains k g) then
         let tail := r2.takeWhile (fun c => c ≠ '|')
         some ('*' :: '*' :: (g ++ '*' :: '*' :: tail), r2.drop tail.length)
       else none
     | _ => none)
  | _ => none

/-- Attempt of the technical-term findall pattern at one position: one of
the keywords, then a pipe-free tail; the scan resumes after the match. -/
def findallTechAttempt (s : List Char) : Option (List Char × List Char) :=
  if methodKwsTech.any (fun k => k.isPrefixOf s) then
    let full := s.takeWhile (fun c => c ≠ '|')
    some (full, s.drop full.length)
  else none

/-- Non-overlapping left-to-right collection of all matches, the model of
re.findall: on a match the scan resumes after the matched text, otherwise
it advances one character.  Every step consumes at least one character, so
a fuel equal to the length of the scanned text suffices. -/
def findallScan (attempt : List Char → Option (List Char × List Char)) :
    Nat → List Char → List (List Char)
  | 0, _ => []
  | _, [] => []
  | fuel + 1, c :: r =>
    match attempt (c :: r) with
    | some (g, rest) => g :: findallScan attempt fuel rest
    | none => findallScan attempt fuel r

/-- The method fallback of extract_table_cells_from_line: the two findall
patterns are tried in order, and the first with a non-empty match list sets
the field to the matches joined by single spaces. -/
def methodFallback (line : List Char) : List Char :=
  let m1 := findallScan findallBoldMethodAttempt line.length line
  if m1 ≠ [] then joinChar ' ' m1
  else
    let m2 := findallScan findallTechAttempt line.length line
    if m2 ≠ [] then joinChar ' ' m2 else []

/-- Final cleanup applied to every non-empty extracted field: whitespace
runs collapsed to one space, the result stripped, then every bold marker
(two consecutive asterisks) removed — in that order, so the marker removal
can leave two adjacent spaces behind. -/
def cleanupField (v : List Char) : List Char :=
  if v = [] then v else removeBoldPairs (pyStrip (collapseWs v))

/-- Embedding of extract_table_cells_from_line of
scripts/extract_section.py: the positional split when the delimiter split
yields at least six parts, the fallback patterns otherwise, followed by the
per-field cleanup.  The inner bounds tests mirror the redundant length
guards of the Python source. -/
def extract_table_cells_from_line (line : List Char) : TableCells :=
  let parts := pySplitPipe line
  let base : TableCells :=
    if 6 ≤ parts.length then
      { core_problem := if 1 < parts.length then pyStrip (parts.getD 1 []) else []
        data_source := if 2 < parts.length then pyStrip (parts.getD 2 []) else []
        data_mining_methods := if 3 < parts.length then pyStrip (parts.getD 3 []) else []
        conclusion := if 4 < parts.length then pyStrip (parts.getD 4 []) else []
        summary := if 5 < parts.length then pyStrip (parts.getD 5 []) else [] }
    else
      { core_problem := problemFallback line
        data_source := []
        data_mining_methods := methodFallback line
        conclusion := []
        summary := [] }
  { core_problem := cleanupField base.core_problem
    data_source := cleanupField base.data_source
    data_mining_methods := cleanupField base.data_mining_methods
    conclusion := cleanupField base.conclusion
    summary := cleanupField base.summary }

/-- One extracted paper row: the dictionary built by
extract_papers_from_section, with the five cell fields merged in by the
dict update. -/
structure PaperRecord where
  title : List Char
  url : List Char
  context : List Char
  number : Nat
  core_problem : List Char
  data_source : List Char
  data_mining_methods : List Char
  conclusion : List Char
  summary : List Char
deriving DecidableEq

/-- The record built for one qualifying row: the link groups, the stripped
line as context, the ordinal, and the extracted table cells. -/
def buildPaper (n : Nat) (t u line : List Char) : PaperRecord :=
  let cells := extract_table_cells_from_line line
  { title := t, url := u, context := line, number := n
    core_problem := cells.core_problem
    data_source := cells.data_source
    data_mining_methods := cells.data_mining_methods
    conclusion := cells.conclusion
    summary := cells.summary }

/-- The row loop of extract_papers_from_section: each line is stripped,
skipped lines and lines without a leading link produce nothing, and every
other line appends one record whose ordinal is the new list length. -/
def papersLoop (acc : List PaperRecord) : List (List Char) → List PaperRecord
  | [] => acc
  | l :: ls =>
    let t := pyStrip l
    if rowSkipped t then papersLoop acc ls
    else
      match linkMatch t with
      | none => papersLoop acc ls
      | some (ti, u) => papersLoop (acc ++ [buildPaper (acc.length + 1) ti u t]) ls

/-- Embedding of extract_papers_from_section of
scripts/extract_section.py. -/
def extract_papers_from_section (sec : List Char) : List PaperRecord :=
  papersLoop [] (splitNL sec)

/-- Qualification of a stripped line as a paper row: not skipped and
starting with the link construct. -/
def qualifiesRow (t : List Char) : Bool :=
  !(rowSkipped t) && (linkMatch t).isSome

/-- Specification-side enumeration: one record per qualifying stripped
line, numbered consecutively from the given ordinal. -/
def numberRows (n : Nat) : List (List Char) → List PaperRecord
  | [] => []
  | l :: ls =>
    (match linkMatch l with
     | some (ti, u) => buildPaper n ti u l
     | none => buildPaper n [] [] l) :: numberRows (n + 1) ls

/-!
Second pass: extract_research_details of scripts/extract_section.py.
-/

/-- Attempt of a labelled-field pattern at one position: the label, a
fullwidth or ASCII colon, then the lazy group terminated by the next pipe
or the end of the row. -/
def labelAttempt (lbl : List Char) (s : List Char) : Option (List Char) :=
  if lbl.isPrefixOf s then
    match s.drop lbl.length with
    | c :: rest =>
      if c = '：' || c = ':' then
        lazyGroup (rest.takeWhile (fun x => x ≠ '|'))
      else none
    | [] => none
  else none

/-- Left-to-right search with a labelled-field pattern. -/
def labelSearch (lbl : List Char) : List Char → Option (List Char)
  | [] => labelAttempt lbl []
  | c :: r =>
    match labelAttempt lbl (c :: r) with
    | some g => some g
    | none => labelSearch lbl r

/-- Attempt of the bold-question entry pattern at one position: a bold span
whose asterisk-free content holds the question keyword at offset at least
one (the pattern requires one or more characters before the keyword). -/
def boldPlusKwAttempt (kw : List Char) : List Char → Option (List Char)
  | '*' :: '*' :: r =>
    let g := r.takeWhile (fun c => c ≠ '*')
    (match r.drop g.length with
     | '*' :: '*' :: _ =>
       if strContains kw (g.drop 1) then some g else none
     | _ => none)
  | _ => none

/-- Left-to-right search with the bold-question entry pattern. -/
def boldPlusKwSearch (kw : List Char) : List Char → Option (List Char)
  | [] => boldPlusKwAttempt kw []
  | c :: r =>
    match boldPlusKwAttempt kw (c :: r) with
    | some g => some g
    | none => boldPlusKwSearch kw r

/-- Attempt of the bolded method-label pattern at one position: two
asterisks, the method keyword, an asterisk-free span, two asterisks, a
colon, then the lazy group terminated by the next pipe or the end. -/
def boldMethodLabelAttempt (s : List Char) : Option (List Char) :=
  if ('*' :: '*' :: "方法".toList).isPrefixOf s then
    let r := s.drop 4
    let inner := r.takeWhile (fun c => c ≠ '*')
    match r.drop inner.length with
    | '*' :: '*' :: c :: rest =>
      if c = '：' || c = ':' then
        lazyGroup (rest.takeWhile (fun x => x ≠ '|'))
      else none
    | _ => none
  else none

/-- Left-to-right search with the bolded method-label pattern. -/
def boldMethodLabelSearch : List Char → Option (List Char)
  | [] => boldMethodLabelAttempt []
  | c :: r =>
    match boldMethodLabelAttempt (c :: r) with
    | some g => some g
    | none => boldMethodLabelSearch r

/-- Attempt of a technical-term fallback pattern at one position: the
keyword then everything up to the next pipe or the end of the row. -/
def kwTailAttempt (kw : List Char) (s : List Char) : Option (List Char) :=
  if kw.isPrefixOf s then some (s.takeWhile (fun c => c ≠ '|')) else none

/-- Left-to-right search with a technical-term fallback pattern. -/
def kwTailSearch (kw : List Char) : List Char → Option (List Char)
  | [] => kwTailAttempt kw []
  | c :: r =>
    match kwTailAttempt kw (c :: r) with
    | some g => some g
    | none => kwTailSearch kw r

/-- Attempt of the final technical fallback pattern at one position: the
analysis keyword, a pipe-free stretch containing the method keyword after
it, extending to the next pipe or the end. -/
def anaMethodAttempt (s : List Char) : Option (List Char) :=
  if "分析".toList.isPrefixOf s then
    let seg := s.takeWhile (fun c => c ≠ '|')
    if strContains "方法".toList (seg.drop 2) then some seg else none
  else none

/-- Left-to-right search with the final technical fallback pattern. -/
def anaMethodSearch : List Char → Option (List Char)
  | [] => anaMethodAttempt []
  | c :: r =>
    match anaMethodAttempt (c :: r) with
    | some g => some g
    | none => anaMethodSearch r

/-- The entry-point label patterns of extract_research_details, tried in
order; the first match wins. -/
def entrySearches (content : List Char) : Option (List Char) :=
  match labelSearch "研究切入口".toList content with
  | some g => some g
  | none =>
    match labelSearch "核心问题".toList content with
    | some g => some g
    | none =>
      match labelSearch "研究目标".toList content with
      | some g => some g
      | none =>
        match labelSearch "主要问题".toList content with
        | some g => some g
        | none => boldPlusKwSearch "问题".toList content

/-- The method label patterns of extract_research_details, tried in order;
the first match wins. -/
def methodLabelSearches (content : List Char) : Option (List Char) :=
  match labelSearch "数据挖掘及分析方法".toList content with
  | some g => some g
  | none =>
    match labelSearch "方法".toList content with
    | some g => some g
    | none =>
      match labelSearch "分析方法".toList content with
      | some g => some g
      | none =>
        match labelSearch "技术".toList content with
        | some g => some g
        | none => boldMethodLabelSearch content

/-- The technical-term fallback patterns of extract_research_details, tried
in order; the first match wins. -/
def techSearches (content : List Char) : Option (List Char) :=
  match kwTailSearch "机器学习".toList content with
  | some g => some g
  | none =>
    match kwTailSearch "深度学习".toList content with
    | some g => some g
    | none =>
      match kwTailSearch "数据挖掘".toList content with
      | some g => some g
      | none =>
        match kwTailSearch "统计分析".toList content with
        | some g => some g
        | none =>
          match kwTailSearch "模型".toList content with
          | some g => some g
          | none =>
            match kwTailSearch "算法".toList content with
            | some g => some g
            | none => anaMethodSearch content

/-- Post-processing of a matched label group in extract_research_details:
strip, remove bold markers, then collapse whitespace runs (this order
differs from the cell cleanup of extract_table_cells_from_line). -/
def labelGroupProcess (g : List Char) : List Char :=
  collapseWs (removeBoldPairs (pyStrip g))

/-- The two fields re-derived by extract_research_details. -/
structure ResearchDetails where
  research_entry_point : List Char
  data_mining_methods : List Char
deriving DecidableEq

/-- Embedding of extract_research_details of scripts/extract_section.py.
A non-empty core_problem is used as the entry point without re-parsing; a
non-empty data_mining_methods is kept without re-parsing; otherwise the
label patterns run on the raw row, and when the method labels leave the
field empty the technical-term fallback runs (its match is only stripped,
not further processed).  The data_source field is never consulted. -/
def extract_research_details (paper : PaperRecord) : ResearchDetails :=
  let content := paper.context
  let research_entry :=
    if paper.core_problem ≠ [] then paper.core_problem
    else
      match entrySearches content with
      | some g => labelGroupProcess g
      | none => []
  let methods0 :=
    if paper.data_mining_methods ≠ [] then paper.data_mining_methods
    else
      match methodLabelSearches content with
      | some g => labelGroupProcess g
      | none => []
  let methods :=
    if methods0 = [] then
      match techSearches content with
      | some g => pyStrip g
      | none => []
    else methods0
  { research_entry_point := research_entry, data_mining_methods := methods }

/-!
EncodingReader: read_html_file of scripts/convert_word_html.py.
-/

/-- The fixed candidate encoding list of read_html_file, in order. -/
def encodings_to_try : List (List Char) :=
  ["cp936".toList, "gb2312".toList, "gbk".toList, "utf-8".toList, "iso-8859-1".toList]

/-- The attempt loop of read_html_file over a list of encodings.  The open
and read of one attempt is abstracted as a function from the encoding name
to either the file bytes or an I/O-level error; decoding is a total
function of the encoding and the bytes because the read passes the
errors-ignore option, under which undecodable bytes are dropped and
decoding never raises. -/
def readHtmlLoop (tryRead : List Char → Except Unit (List Nat))
    (decodeIgnore : List Char → List Nat → List Char) :
    List (List Char) → Except Unit (List Char)
  | [] => Except.error ()
  | e :: rest =>
    match tryRead e with
    | Except.ok bs => Except.ok (decodeIgnore e bs)
    | Except.error _ => readHtmlLoop tryRead decodeIgnore rest

/-- Embedding of read_html_file of scripts/convert_word_html.py: the
candidates are attempted in their fixed order, the first attempt whose open
and read succeeds determines the returned content, and the final fatal
error is raised only when every attempt failed. -/
def read_html_file (tryRead : List Char → Except Unit (List Nat))
    (decodeIgnore : List Char → List Nat → List Char) : Except Unit (List Char) :=
  readHtmlLoop tryRead decodeIgnore encodings_to_try

/-!
General lemmas about the string model.
-/

theorem splitOnChar_ne_nil (sep : Char) (s : List Char) : splitOnChar sep s ≠ [] := by
  induction s with
  | nil => simp [splitOnChar]
  | cons c r ih =>
    by_cases h : c = sep
    · simp [splitOnChar, h]
    · simp only [splitOnChar, if_neg h]
      cases hs : splitOnChar sep r with
      | nil => simp
      | cons a t => simp

theorem joinChar_cons_cons (sep : Char) (x y : List Char) (xs : List (List Char)) :
    joinChar sep (x :: y :: xs) = x ++ sep :: joinChar sep (y :: xs) := rfl

theorem joinChar_splitOnChar (sep : Char) (s : List Char) :
    joinChar sep (splitOnChar sep s) = s := by
  induction s with
  | nil => rfl
  | cons c r ih =>
    by_cases h : c = sep
    · simp only [splitOnChar, if_pos h]
      cases hs : splitOnChar sep r with
      | nil => exact absurd hs (splitOnChar_ne_nil sep r)
      | cons a t =>
        rw [hs] at ih
        simp [joinChar, ih, h]
    · simp only [splitOnChar, if_neg h]
      cases hs : splitOnChar sep r with
      | nil => exact absurd hs (splitOnChar_ne_nil sep r)
      | cons a t =>
        rw [hs] at ih
        cases t with
        | nil => simpa [joinChar] using ih
        | cons b t2 => simpa [joinChar] using ih

theorem preConsCons {c : Char} {l1 l2 : List Char} (h : l1 <+: l2) :
    (c :: l1) <+: (c :: l2) := by
  rcases h with ⟨t, ht⟩
  exact ⟨t, by rw [List.cons_append, ht]⟩

theorem headOfSplitIsPre (sep : Char) (s : List Char) (h : List Char)
    (t : List (List Char)) (hs : splitOnChar sep s = h :: t) : h <+: s := by
  induction s generalizing h t with
  | nil =>
    simp only [splitOnChar] at hs
    cases hs
    exact List.nil_prefix
  | cons c r ih =>
    by_cases hc : c = sep
    · simp only [splitOnChar, if_pos hc] at hs
      cases hs
      exact List.nil_prefix
    · simp only [splitOnChar, if_neg hc] at hs
      cases hr : splitOnChar sep r with
      | nil => exact absurd hr (splitOnChar_ne_nil sep r)
      | cons a ta =>
        rw [hr] at hs
        injection hs with h1 h2
        rw [← h1]
        exact preConsCons (ih a ta hr)

theorem memSplitIsInfix (sep : Char) (s : List Char) (l : List Char)
    (hmem : l ∈ splitOnChar sep s) : l <:+: s := by
  induction s generalizing l with
  | nil =>
    simp only [splitOnChar, List.mem_singleton] at hmem
    simp [hmem]
  | cons c r ih =>
    by_cases hc : c = sep
    · simp only [splitOnChar, if_pos hc, List.mem_cons] at hmem
      rcases hmem with h1 | h2
      · simp [h1]
      · exact (ih l h2).trans (List.infix_cons (List.infix_refl r))
    · simp only [splitOnChar, if_neg hc] at hmem
      cases hr : splitOnChar sep r with
      | nil => exact absurd hr (splitOnChar_ne_nil sep r)
      | cons a ta =>
        rw [hr] at hmem
        rcases List.mem_cons.mp hmem with h1 | h2
        · subst h1
          exact (preConsCons (headOfSplitIsPre sep r a ta hr)).isInfix
        · exact (ih l (by rw [hr]; exact List.mem_cons_of_mem a h2)).trans
            (List.infix_cons (List.infix_refl r))

theorem joinTakeIsPre (sep : Char) (b : Nat) (ls : List (List Char)) :
    joinChar sep (ls.take b) <+: joinChar sep ls := by
  induction ls generalizing b with
  | nil => simp
  | cons x xs ih =>
    cases b with
    | zero => exact List.nil_prefix
    | succ b2 =>
      simp only [List.take_succ_cons]
      cases xs with
      | nil => simp [List.take_nil]
      | cons y ys =>
        cases b2 with
        | zero =>
          exact ⟨sep :: joinChar sep (y :: ys), by simp [joinChar, joinChar_cons_cons]⟩
        | succ b3 =>
          have hpre := ih (b := b3 + 1)
          simp only [List.take_succ_cons] at hpre
          rcases hpre with ⟨t, ht⟩
          refine ⟨t, ?_⟩
          rw [List.take_succ_cons, joinChar_cons_cons, joinChar_cons_cons,
            List.append_assoc, List.cons_append, ht]

theorem joinDropIsSuf (sep : Char) (a : Nat) (ls : List (List Char)) :
    joinChar sep (ls.drop a) <:+ joinChar sep ls := by
  induction ls generalizing a with
  | nil => simp
  | cons x xs ih =>
    cases a with
    | zero => simp
    | succ a2 =>
      simp only [List.drop_succ_cons]
      refine (ih (a := a2)).trans ?_
      cases xs with
      | nil => exact ⟨x, by simp [joinChar]⟩
      | cons y ys =>
        exact ⟨x ++ [sep], by simp [joinChar_cons_cons]⟩

theorem joinSliceIsInfix (sep : Char) (a b : Nat) (ls : List (List Char)) :
    joinChar sep ((ls.drop a).take b) <:+: joinChar sep ls :=
  ((joinTakeIsPre sep b (ls.drop a)).isInfix).trans (joinDropIsSuf sep a ls).isInfix

theorem dropTrailWsIsPre (s : List Char) : dropTrailWs s <+: s := by
  have h1 : (s.reverse.dropWhile pyIsSpace) <:+ s.reverse := List.dropWhile_suffix pyIsSpace
  rcases h1 with ⟨t, ht⟩
  refine ⟨t.reverse, ?_⟩
  have h2 := congrArg List.reverse ht
  simpa [dropTrailWs] using h2

theorem pyStripIsInfix (s : List Char) : pyStrip s <:+: s := by
  have h1 : pyStrip s <+: s.dropWhile pyIsSpace := dropTrailWsIsPre _
  have h2 : s.dropWhile pyIsSpace <:+ s := List.dropWhile_suffix pyIsSpace
  exact h1.isInfix.trans h2.isInfix

theorem firstIdxSpec (p : List Char → Bool) (ls : List (List Char)) (i : Nat)
    (h : firstIdx p ls = some i) :
    i < ls.length ∧ p (ls.getD i []) = true ∧ ∀ j, j < i → p (ls.getD j []) = false := by
  induction ls generalizing i with
  | nil => simp [firstIdx] at h
  | cons l ls ih =>
    by_cases hp : p l
    · simp only [firstIdx, if_pos hp] at h
      cases h
      exact ⟨Nat.succ_pos _, hp, fun j hj => absurd hj (Nat.not_lt_zero j)⟩
    · simp only [firstIdx, if_neg hp] at h
      cases hfi : firstIdx p ls with
      | none => rw [hfi] at h; simp at h
      | some k =>
        rw [hfi] at h
        simp only [Option.map_some'] at h
        cases h
        rcases ih k hfi with ⟨h1, h2, h3⟩
        refine ⟨Nat.succ_lt_succ h1, h2, ?_⟩
        intro j hj
        cases j with
        | zero => simpa using hp
        | succ j2 => exact h3 j2 (Nat.lt_of_succ_lt_succ hj)

theorem firstIdxAt (p : List Char → Bool) (ls : List (List Char)) (s : Nat)
    (hlen : s < ls.length) (hp : p (ls.getD s []) = true)
    (hleast : ∀ j, j < s → p (ls.getD j []) = false) :
    firstIdx p ls = some s := by
  induction ls generalizing s with
  | nil => simp at hlen
  | cons l ls ih =>
    cases s with
    | zero =>
      simp only [List.getD_cons_zero] at hp
      simp [firstIdx, hp]
    | succ s2 =>
      have h0 : p l = false := by simpa using hleast 0 (Nat.succ_pos s2)
      simp only [firstIdx, h0, Bool.false_eq_true, if_false]
      rw [ih s2 (Nat.lt_of_succ_lt_succ hlen) (by simpa using hp)
        (fun j hj => by simpa using hleast (j + 1) (Nat.succ_lt_succ hj))]
      rfl

theorem firstIdxNone (p : List Char → Bool) (ls : List (List Char))
    (h : firstIdx p ls = none) : ∀ l ∈ ls, p l = false := by
  induction ls with
  | nil => simp
  | cons l ls ih =>
    by_cases hp : p l
    · simp [firstIdx, hp] at h
    · intro x hx
      rcases List.mem_cons.mp hx with h1 | h2
      · subst h1; simpa using hp
      · simp only [firstIdx, if_neg hp] at h
        cases hfi : firstIdx p ls with
        | none => exact ih hfi x h2
        | some k => rw [hfi] at h; simp at h

theorem getDDrop (ls : List (List Char)) (n k : Nat) :
    (ls.drop n).getD k [] = ls.getD (n + k) [] := by
  induction ls generalizing n with
  | nil => simp
  | cons l ls ih =>
    cases n with
    | zero => simp
    | succ n2 =>
      simp only [List.drop_succ_cons]
      rw [ih n2]
      simp [Nat.succ_add]

theorem getDMap (f : List Char → List Char) (ls : List (List Char)) (i : Nat)
    (h : i < ls.length) : (ls.map f).getD i [] = f (ls.getD i []) := by
  induction ls generalizing i with
  | nil => simp at h
  | cons l ls ih =>
    cases i with
    | zero => simp
    | succ i2 =>
      simp only [List.map_cons, List.getD_cons_succ]
      exact ih i2 (Nat.lt_of_succ_lt_succ h)

/-!
Lemmas about the row loop and the cell cleanup.
-/

theorem papersLoopEq (ls : List (List Char)) (acc : List PaperRecord) :
    papersLoop acc ls =
      acc ++ numberRows (acc.length + 1) ((ls.map pyStrip).filter qualifiesRow) := by
  induction ls generalizing acc with
  | nil => simp [papersLoop, numberRows]
  | cons l ls ih =>
    by_cases hsk : rowSkipped (pyStrip l)
    · have hq : qualifiesRow (pyStrip l) = false := by
        simp [qualifiesRow, hsk]
      simp only [papersLoop, if_pos hsk, List.map_cons, List.filter_cons, hq]
      exact ih acc
    · cases hlm : linkMatch (pyStrip l) with
      | none =>
        have hq : qualifiesRow (pyStrip l) = false := by
          simp [qualifiesRow, hlm]
        simp only [papersLoop, if_neg hsk, hlm, List.map_cons, List.filter_cons, hq]
        exact ih acc
      | some tu =>
        have hq : qualifiesRow (pyStrip l) = true := by
          simp [qualifiesRow, hsk, hlm]
        obtain ⟨ti, u⟩ := tu
        simp only [papersLoop, if_neg hsk, hlm, List.map_cons, List.filter_cons, hq,
          if_pos trivial]
        rw [ih]
        simp only [numberRows, hlm, List.length_append, List.length_cons,
          List.length_nil, List.append_assoc, List.cons_append, List.nil_append]

theorem memNumberRowsContext (q : List (List Char)) :
    ∀ n r, r ∈ numberRows n q → ∃ l ∈ q, r.context = l := by
  induction q with
  | nil => intro n r hr; simp [numberRows] at hr
  | cons l q ih =>
    intro n r hr
    simp only [numberRows] at hr
    rcases List.mem_cons.mp hr with h1 | h2
    · refine ⟨l, List.mem_cons_self l q, ?_⟩
      subst h1
      cases hlm : linkMatch l with
      | none => simp [hlm, buildPaper]
      | some tu => obtain ⟨ti, u⟩ := tu; simp [hlm, buildPaper]
    · rcases ih (n + 1) r h2 with ⟨l2, hl2, hctx⟩
      exact ⟨l2, List.mem_cons_of_mem l hl2, hctx⟩

theorem rbpConsNe (d : Char) (r : List Char) (hd : ¬ d = '*') :
    removeBoldPairs (d :: r) = d :: removeBoldPairs r := by
  cases r with
  | nil => rfl
  | cons e r2 =>
    have : ¬ (d = '*' ∧ e = '*') := fun h => hd h.1
    simp [removeBoldPairs, this]

theorem noDSConsNe (c : Char) (xs : List Char) (hc : ¬ c = '*')
    (h : noDoubleStar xs = true) : noDoubleStar (c :: xs) = true := by
  cases xs with
  | nil => rfl
  | cons y ys => simp [noDoubleStar, hc, h]

theorem noDSRemoveBold : ∀ v, noDoubleStar (removeBoldPairs v) = true
  | [] => rfl
  | [_] => rfl
  | c :: d :: r => by
    by_cases h : c = '*' ∧ d = '*'
    · rw [show removeBoldPairs (c :: d :: r) = removeBoldPairs r by
        simp [removeBoldPairs, h]]
      exact noDSRemoveBold r
    · rw [show removeBoldPairs (c :: d :: r) = c :: removeBoldPairs (d :: r) by
        simp [removeBoldPairs, h]]
      have ht := noDSRemoveBold (d :: r)
      by_cases hc : c = '*'
      · have hdne : ¬ d = '*' := fun hdd => h ⟨hc, hdd⟩
        rw [rbpConsNe d r hdne] at ht ⊢
        simp [noDoubleStar, hdne, ht, hc]
      · exact noDSConsNe c _ hc ht

theorem memRemoveBold (c : Char) : ∀ v, c ∈ removeBoldPairs v → c ∈ v
  | [] => by simp [removeBoldPairs]
  | [d] => by simp [removeBoldPairs]
  | d :: e :: r => by
    intro hc
    by_cases h : d = '*' ∧ e = '*'
    · rw [show removeBoldPairs (d :: e :: r) = removeBoldPairs r by
        simp [removeBoldPairs, h]] at hc
      exact List.mem_cons_of_mem d (List.mem_cons_of_mem e (memRemoveBold c r hc))
    · rw [show removeBoldPairs (d :: e :: r) = d :: removeBoldPairs (e :: r) by
        simp [removeBoldPairs, h]] at hc
      rcases List.mem_cons.mp hc with h1 | h2
      · simp [h1]
      · exact List.mem_cons_of_mem d (memRemoveBold c (e :: r) h2)

theorem memCollapseAux (c : Char) :
    ∀ b v, c ∈ collapseWsAux b v → pyIsSpace c = true → c = ' ' := by
  intro b v
  induction v generalizing b with
  | nil => simp [collapseWsAux]
  | cons d r ih =>
    intro hc hsp
    by_cases hd : pyIsSpace d
    · simp only [collapseWsAux, if_pos hd] at hc
      by_cases hb : b
      · subst hb; simp only [if_pos rfl] at hc
        exact ih true hc hsp
      · have hb2 : b = false := by simpa using hb
        subst hb2
        simp only [Bool.false_eq_true, if_false] at hc
        rcases List.mem_cons.mp hc with h1 | h2
        · exact h1
        · exact ih true h2 hsp
    · simp only [collapseWsAux, if_neg hd] at hc
      rcases List.mem_cons.mp hc with h1 | h2
      · subst h1; exact absurd hsp (by simpa using hd)
      · exact ih false h2 hsp

theorem memCollapse (c : Char) (v : List Char) (hc : c ∈ collapseWs v)
    (hsp : pyIsSpace c = true) : c = ' ' :=
  memCollapseAux c false v hc hsp

theorem memPyStrip (c : Char) (v : List Char) (hc : c ∈ pyStrip v) : c ∈ v :=
  (pyStripIsInfix v).subset hc

theorem cleanupFieldNoDS (v : List Char) : noDoubleStar (cleanupField v) = true := by
  by_cases hv : v = []
  · simp [cleanupField, hv, noDoubleStar]
  · simp only [cleanupField, if_neg hv]
    exact noDSRemoveBold _

theorem cleanupFieldWsSpace (v : List Char) (c : Char) (hc : c ∈ cleanupField v)
    (hsp : pyIsSpace c = true) : c = ' ' := by
  by_cases hv : v = []
  · simp [cleanupField, hv] at hc
  · simp only [cleanupField, if_neg hv] at hc
    exact memCollapse c v (memPyStrip c _ (memRemoveBold c _ hc)) hsp

theorem getDTake (ls : List (List Char)) (n i : Nat) (h : i < n) :
    (ls.take n).getD i [] = ls.getD i [] := by
  induction ls generalizing n i with
  | nil => simp
  | cons l ls ih =>
    cases n with
    | zero => omega
    | succ n2 =>
      cases i with
      | zero => simp
      | succ i2 =>
        simp only [List.take_succ_cons, List.getD_cons_succ]
        exact ih n2 i2 (by omega)

theorem cellsPositional (line : List Char) (h : 6 ≤ (pySplitPipe line).length) :
    extract_table_cells_from_line line =
      { core_problem := cleanupField (pyStrip ((pySplitPipe line).getD 1 []))
        data_source := cleanupField (pyStrip ((pySplitPipe line).getD 2 []))
        data_mining_methods := cleanupField (pyStrip ((pySplitPipe line).getD 3 []))
        conclusion := cleanupField (pyStrip ((pySplitPipe line).getD 4 []))
        summary := cleanupField (pyStrip ((pySplitPipe line).getD 5 [])) } := by
  have h1 : 1 < (pySplitPipe line).length := by omega
  have h2 : 2 < (pySplitPipe line).length := by omega
  have h3 : 3 < (pySplitPipe line).length := by omega
  have h4 : 4 < (pySplitPipe line).length := by omega
  have h5 : 5 < (pySplitPipe line).length := by omega
  simp only [extract_table_cells_from_line, if_pos h, if_pos h1, if_pos h2, if_pos h3,
    if_pos h4, if_pos h5]

/-!
Claim theorems (first group).
-/

/-- C2: RowSplitter contract — extract_papers_from_section emits exactly one
record per stripped line that is non-empty, not a table-separator line, not
a bolded header-label line, and starts with a Markdown link construct, in
order of appearance; each record carries the link text and target as title
and url, the full trimmed line as context, and the 1-based ordinal among
qualifying lines (numberRows numbers the filtered qualifying lines
consecutively from one and builds each record from its link groups). -/
theorem claimC2_rowsplitter_contract (sec : List Char) :
    extract_papers_from_section sec =
      numberRows 1 (((splitNL sec).map pyStrip).filter qualifiesRow) := by
  have h := papersLoopEq (splitNL sec) []
  simpa [extract_papers_from_section] using h

/-- C4: the totality claim fails on the code — when only pattern 4 matches
and the matched line is not a heading, the start-level computation calls
.group on a failed match and raises AttributeError.  On a document that is
a single line equal to the title (no hash anywhere), patterns 1 to 3 fail,
pattern 4 matches line 0, and find_section raises instead of returning. -/
theorem claimC4_locator_crash :
    find_section "复杂自然过程机理揭示".toList "复杂自然过程机理揭示".toList =
      Except.error () := by decide

/-- C5 counterexample: a record with a non-empty data_source, an empty
data_mining_methods and a raw row carrying a technical keyword.  The second
pass re-parses the raw row (returning the keyword tail) instead of
preferring the non-empty data_source, refuting the claim that a populated
dataSource is preferred over re-parsing. -/
def c5CexPaper : PaperRecord :=
  { title := [], url := [], context := "机器学习X".toList, number := 1
    core_problem := "P".toList, data_source := "S".toList
    data_mining_methods := [], conclusion := [], summary := [] }

/-- C5: counterexample — despite data_source being non-empty, the returned
methods field is re-parsed from the raw row and differs from data_source. -/
theorem claimC5_counterexample :
    c5CexPaper.data_source ≠ [] ∧
    extract_research_details c5CexPaper =
      { research_entry_point := "P".toList
        data_mining_methods := "机器学习X".toList } ∧
    (extract_research_details c5CexPaper).data_mining_methods ≠ c5CexPaper.data_source := by
  refine ⟨by decide, by decide, by decide⟩

/-- C5 (amended): the second pass prefers the already-populated
core_problem and data_mining_methods fields — a non-empty core_problem is
returned as the entry point without running the label patterns, and a
non-empty data_mining_methods is returned unchanged without re-parsing; the
data_source field plays no role in extract_research_details. -/
theorem claimC5_second_pass_preference (p : PaperRecord) :
    (p.core_problem ≠ [] →
      (extract_research_details p).research_entry_point = p.core_problem) ∧
    (p.data_mining_methods ≠ [] →
      (extract_research_details p).data_mining_methods = p.data_mining_methods) := by
  constructor
  · intro h
    simp [extract_research_details, h]
  · intro h
    simp [extract_research_details, h]

/-- C5 witness record for the amended preference theorem. -/
def c5WitPaper : PaperRecord :=
  { title := [], url := [], context := "行".toList, number := 1
    core_problem := "核".toList, data_source := []
    data_mining_methods := "法".toList, conclusion := [], summary := [] }

/-- C5: witness — the amended preference theorem applied at a concrete
record with both fields populated. -/
theorem claimC5_witness :
    c5WitPaper.core_problem ≠ [] ∧ c5WitPaper.data_mining_methods ≠ [] ∧
    (extract_research_details c5WitPaper).research_entry_point = c5WitPaper.core_problem ∧
    (extract_research_details c5WitPaper).data_mining_methods = c5WitPaper.data_mining_methods :=
  ⟨by decide, by decide,
    (claimC5_second_pass_preference c5WitPaper).1 (by decide),
    (claimC5_second_pass_preference c5WitPaper).2 (by decide)⟩

/-- C6: when the delimiter split yields at least six parts, the five fields
are the stripped then cleanup-processed parts 1 to 5 in order, and the
result is expressed entirely without the fallback patterns (they are not
applied). -/
theorem claimC6_positional_mapping (line : List Char)
    (h : 6 ≤ (pySplitPipe line).length) :
    extract_table_cells_from_line line =
      { core_problem := cleanupField (pyStrip ((pySplitPipe line).getD 1 []))
        data_source := cleanupField (pyStrip ((pySplitPipe line).getD 2 []))
        data_mining_methods := cleanupField (pyStrip ((pySplitPipe line).getD 3 []))
        conclusion := cleanupField (pyStrip ((pySplitPipe line).getD 4 []))
        summary := cleanupField (pyStrip ((pySplitPipe line).getD 5 [])) } :=
  cellsPositional line h

/-- C6: witness — the positional mapping at a concrete six-column row. -/
theorem claimC6_witness :
    6 ≤ (pySplitPipe "t|a|b|c|d|e".toList).length ∧
    extract_table_cells_from_line "t|a|b|c|d|e".toList =
      { core_problem := cleanupField (pyStrip ((pySplitPipe "t|a|b|c|d|e".toList).getD 1 []))
        data_source := cleanupField (pyStrip ((pySplitPipe "t|a|b|c|d|e".toList).getD 2 []))
        data_mining_methods :=
          cleanupField (pyStrip ((pySplitPipe "t|a|b|c|d|e".toList).getD 3 []))
        conclusion := cleanupField (pyStrip ((pySplitPipe "t|a|b|c|d|e".toList).getD 4 []))
        summary := cleanupField (pyStrip ((pySplitPipe "t|a|b|c|d|e".toList).getD 5 [])) } :=
  ⟨by decide, claimC6_positional_mapping "t|a|b|c|d|e".toList (by decide)⟩

/-- C7 counterexample row: the second column holds a bold marker flanked by
single spaces; the cleanup collapses whitespace first and removes the
marker afterwards, leaving two adjacent spaces in the returned field, so
the returned value does not have its whitespace runs collapsed to a single
space. -/
theorem claimC7_counterexample :
    (extract_table_cells_from_line "x|a ** b|c|d|e|f".toList).core_problem =
      ['a', ' ', ' ', 'b'] := by decide

/-- C7 (amended): extract_table_cells_from_line is total (it is a function
returning all five fields), every returned field has all bold markers
removed and every whitespace character normalised to a plain space — but
because the marker removal runs after the whitespace collapse it can leave
runs of more than one space, so single-space runs are not guaranteed — and
a field for which neither the column split nor any fallback pattern
produced a value is the empty string. -/
theorem claimC7_field_extractor (line : List Char) :
    (noDoubleStar (extract_table_cells_from_line line).core_problem = true ∧
     noDoubleStar (extract_table_cells_from_line line).data_source = true ∧
     noDoubleStar (extract_table_cells_from_line line).data_mining_methods = true ∧
     noDoubleStar (extract_table_cells_from_line line).conclusion = true ∧
     noDoubleStar (extract_table_cells_from_line line).summary = true) ∧
    (∀ c,
      (c ∈ (extract_table_cells_from_line line).core_problem ∨
       c ∈ (extract_table_cells_from_line line).data_source ∨
       c ∈ (extract_table_cells_from_line line).data_mining_methods ∨
       c ∈ (extract_table_cells_from_line line).conclusion ∨
       c ∈ (extract_table_cells_from_line line).summary) →
      pyIsSpace c = true → c = ' ') ∧
    ((pySplitPipe line).length < 6 →
      (extract_table_cells_from_line line).data_source = [] ∧
      (extract_table_cells_from_line line).conclusion = [] ∧
      (extract_table_cells_from_line line).summary = [] ∧
      (datePipeSearch line = none → boldKwSearch problemKws line = none →
        (extract_table_cells_from_line line).core_problem = []) ∧
      (findallScan findallBoldMethodAttempt line.length line = [] →
       findallScan findallTechAttempt line.length line = [] →
        (extract_table_cells_from_line line).data_mining_methods = [])) := by
  have hproj :
      ∃ b : TableCells, extract_table_cells_from_line line =
        { core_problem := cleanupField b.core_problem
          data_source := cleanupField b.data_source
          data_mining_methods := cleanupField b.data_mining_methods
          conclusion := cleanupField b.conclusion
          summary := cleanupField b.summary } := ⟨_, rfl⟩
  rcases hproj with ⟨b, hb⟩
  refine ⟨?_, ?_, ?_⟩
  · rw [hb]
    exact ⟨cleanupFieldNoDS _, cleanupFieldNoDS _, cleanupFieldNoDS _,
      cleanupFieldNoDS _, cleanupFieldNoDS _⟩
  · rw [hb]
    intro c hc hsp
    rcases hc with h | h | h | h | h
    all_goals exact cleanupFieldWsSpace _ c h hsp
  · intro h6
    have hne : ¬ 6 ≤ (pySplitPipe line).length := by omega
    refine ⟨?_, ?_, ?_, ?_, ?_⟩
    · simp [extract_table_cells_from_line, if_neg hne, cleanupField]
    · simp [extract_table_cells_from_line, if_neg hne, cleanupField]
    · simp [extract_table_cells_from_line, if_neg hne, cleanupField]
    · intro hd hk
      simp [extract_table_cells_from_line, if_neg hne, problemFallback, hd, hk, cleanupField]
    · intro hm1 hm2
      simp [extract_table_cells_from_line, if_neg hne, methodFallback, hm1, hm2, cleanupField]

/-- C7: witness — the amended extractor theorem applied at the empty row,
which takes the fallback branch with no pattern match, leaving every field
empty. -/
theorem claimC7_witness :
    (pySplitPipe ([] : List Char)).length < 6 ∧
    datePipeSearch ([] : List Char) = none ∧
    (extract_table_cells_from_line ([] : List Char)).data_source = [] ∧
    (extract_table_cells_from_line ([] : List Char)).core_problem = [] ∧
    (extract_table_cells_from_line ([] : List Char)).data_mining_methods = [] := by
  have h := claimC7_field_extractor ([] : List Char)
  have h3 := h.2.2 (by decide)
  exact ⟨by decide, by decide, h3.1, h3.2.2.2.1 (by decide) (by decide),
    h3.2.2.2.2 (by decide) (by decide)⟩

theorem readHtmlLoopAllFail (tryRead : List Char → Except Unit (List Nat))
    (decodeIgnore : List Char → List Nat → List Char) (es : List (List Char))
    (h : ∀ e ∈ es, tryRead e = Except.error ()) :
    readHtmlLoop tryRead decodeIgnore es = Except.error () := by
  induction es with
  | nil => rfl
  | cons e rest ih =>
    have he := h e (List.mem_cons_self e rest)
    simp only [readHtmlLoop, he]
    exact ih (fun x hx => h x (List.mem_cons_of_mem e hx))

theorem readHtmlLoopFirstOk (tryRead : List Char → Except Unit (List Nat))
    (decodeIgnore : List Char → List Nat → List Char) :
    ∀ (es : List (List Char)) (i : Nat), i < es.length → ∀ (bs : List Nat),
      tryRead (es.getD i []) = Except.ok bs →
      (∀ j, j < i → tryRead (es.getD j []) = Except.error ()) →
      readHtmlLoop tryRead decodeIgnore es =
        Except.ok (decodeIgnore (es.getD i []) bs) := by
  intro es
  induction es with
  | nil => intro i hi; simp at hi
  | cons e rest ih =>
    intro i hi bs hok hprev
    cases i with
    | zero =>
      simp only [List.getD_cons_zero] at hok ⊢
      simp [readHtmlLoop, hok]
    | succ i2 =>
      have h0 : tryRead e = Except.error () := by
        simpa using hprev 0 (Nat.succ_pos i2)
      simp only [readHtmlLoop, h0, List.getD_cons_succ]
      exact ih i2 (Nat.lt_of_succ_lt_succ hi) bs (by simpa using hok)
        (fun j hj => by simpa using hprev (j + 1) (Nat.succ_lt_succ hj))

/-- C8: EncodingReader — the candidate encodings are attempted in their
fixed order (cp936, gb2312, gbk, utf-8, iso-8859-1); the content returned
is the one decoded under the first candidate whose open-and-read succeeds,
and the fatal error is raised exactly when every candidate attempt raises
an I/O-level error.  Decoding itself is total (the read passes the
errors-ignore option, dropping undecodable bytes), so a decode problem can
neither fail the read nor advance the loop to the next candidate. -/
theorem claimC8_encoding_reader (tryRead : List Char → Except Unit (List Nat))
    (decodeIgnore : List Char → List Nat → List Char) :
    (∀ (i : Nat), i < encodings_to_try.length → ∀ (bs : List Nat),
      tryRead (encodings_to_try.getD i []) = Except.ok bs →
      (∀ j, j < i → tryRead (encodings_to_try.getD j []) = Except.error ()) →
      read_html_file tryRead decodeIgnore =
        Except.ok (decodeIgnore (encodings_to_try.getD i []) bs)) ∧
    ((∀ e ∈ encodings_to_try, tryRead e = Except.error ()) →
      read_html_file tryRead decodeIgnore = Except.error ()) := by
  constructor
  · intro i hi bs hok hprev
    exact readHtmlLoopFirstOk tryRead decodeIgnore encodings_to_try i hi bs hok hprev
  · intro h
    exact readHtmlLoopAllFail tryRead decodeIgnore encodings_to_try h

/-- C8 witness reader: the first two candidates fail at the I/O level, the
third (gbk) succeeds. -/
def c8TryRead (e : List Char) : Except Unit (List Nat) :=
  if e = "gbk".toList then Except.ok [1, 2] else Except.error ()

/-- C8 witness decoder: a fixed total decode function. -/
def c8Decode (e : List Char) (bs : List Nat) : List Char :=
  e ++ List.replicate bs.length 'x'

/-- C8: witness — the reader theorem applied with concrete attempt and
decode functions: the first succeeding candidate (gbk, index 2) determines
the result, and an always-failing reader yields the fatal error. -/
theorem claimC8_witness :
    c8TryRead (encodings_to_try.getD 2 []) = Except.ok [1, 2] ∧
    read_html_file c8TryRead c8Decode =
      Except.ok (c8Decode (encodings_to_try.getD 2 []) [1, 2]) ∧
    read_html_file (fun _ => Except.error ()) c8Decode = Except.error () :=
  ⟨by decide,
    (claimC8_encoding_reader c8TryRead c8Decode).1 2 (by decide) [1, 2] (by decide)
      (by decide),
    (claimC8_encoding_reader (fun _ => Except.error ()) c8Decode).2
      (fun e _ => rfl)⟩

/-- C10: implicit claim that trailing extra columns are dropped — whenever
two rows both split into at least six parts and agree on their first six
parts, the extracted cells coincide; the parts at index six and beyond
therefore never influence any of the five structured fields (they survive
only in the untouched raw row). -/
theorem claimC10_extra_columns_dropped (l1 l2 : List Char)
    (h1 : 6 ≤ (pySplitPipe l1).length) (h2 : 6 ≤ (pySplitPipe l2).length)
    (hagree : (pySplitPipe l1).take 6 = (pySplitPipe l2).take 6) :
    extract_table_cells_from_line l1 = extract_table_cells_from_line l2 := by
  rw [cellsPositional l1 h1, cellsPositional l2 h2]
  have hg : ∀ i, i < 6 → (pySplitPipe l1).getD i [] = (pySplitPipe l2).getD i [] := by
    intro i hi
    rw [← getDTake (pySplitPipe l1) 6 i hi, ← getDTake (pySplitPipe l2) 6 i hi, hagree]
  rw [hg 1 (by omega), hg 2 (by omega), hg 3 (by omega), hg 4 (by omega), hg 5 (by omega)]

/-- C10: witness — two rows differing only in the seventh column yield the
same extracted cells. -/
theorem claimC10_witness :
    6 ≤ (pySplitPipe "t|a|b|c|d|e|extra one".toList).length ∧
    6 ≤ (pySplitPipe "t|a|b|c|d|e|другое".toList).length ∧
    (pySplitPipe "t|a|b|c|d|e|extra one".toList).take 6 =
      (pySplitPipe "t|a|b|c|d|e|другое".toList).take 6 ∧
    extract_table_cells_from_line "t|a|b|c|d|e|extra one".toList =
      extract_table_cells_from_line "t|a|b|c|d|e|другое".toList :=
  ⟨by decide, by decide, by decide,
    claimC10_extra_columns_dropped _ _ (by decide) (by decide) (by decide)⟩

/-!
Lemmas for the section locator claims.
-/

theorem takeIsPre (ls : List (List Char)) (n : Nat) : ls.take n <+: ls :=
  ⟨ls.drop n, List.take_append_drop n ls⟩

theorem dropIsSuf (ls : List (List Char)) (n : Nat) : ls.drop n <:+ ls :=
  ⟨ls.take n, List.take_append_drop n ls⟩

theorem joinInfixMono (sep : Char) (ls2 ls : List (List Char)) (h : ls2 <:+: ls) :
    joinChar sep ls2 <:+: joinChar sep ls := by
  rcases h with ⟨s, t, hst⟩
  have h1 : (ls.drop s.length).take ls2.length = ls2 := by
    have h2 : ls.drop s.length = ls2 ++ t := by
      rw [← hst, List.append_assoc, List.drop_left]
    rw [h2, List.take_left]
  rw [← h1]
  exact joinSliceIsInfix sep s.length ls2.length ls

theorem joinCharSplitNL (s : List Char) : joinChar '\n' (splitNL s) = s :=
  joinChar_splitOnChar '\n' s

/-- Invariant of the find_section fallback loop: every recorded block and
the block under construction are contiguous runs of the processed lines
(the current block is a suffix of them). -/
def fbInv (P : List (List Char)) (st : FBState) : Prop :=
  (∀ blk ∈ st.potential, blk <:+: P) ∧ (∃ a, st.current = P.drop a)

theorem fbStepInv (P : List (List Char)) (st : FBState) (l : List Char)
    (h : fbInv P st) : fbInv (P ++ [l]) (fbStep st l) := by
  rcases h with ⟨hpot, a, hcur⟩
  have hcursuf : st.current <:+ P := by rw [hcur]; exact dropIsSuf P a
  have hext : ∀ blk, blk <:+: P → blk <:+: P ++ [l] := by
    intro blk hb
    exact hb.trans ⟨[], [l], by simp⟩
  by_cases hh : isHeaderLine l
  · by_cases hk : st.current ≠ [] ∧ blockHasKeyword st.current
    · refine ⟨?_, P.length, by simp [fbStep, hh, hk]⟩
      intro blk hblk
      simp only [fbStep, if_pos hh, if_pos hk] at hblk
      rcases List.mem_append.mp hblk with h1 | h2
      · exact hext blk (hpot blk h1)
      · have hb2 : blk = st.current := by simpa using h2
        rw [hb2]
        exact hext st.current hcursuf.isInfix
    · refine ⟨?_, P.length, by simp [fbStep, hh, hk]⟩
      intro blk hblk
      simp only [fbStep, if_pos hh, if_neg hk] at hblk
      exact hext blk (hpot blk hblk)
  · refine ⟨?_, ?_⟩
    · intro blk hblk
      simp only [fbStep, if_neg hh] at hblk
      exact hext blk (hpot blk hblk)
    · simp only [fbStep, if_neg hh]
      by_cases hle : a ≤ P.length
      · refine ⟨a, ?_⟩
        rw [hcur, List.drop_append_of_le_length hle]
      · have hnil : P.drop a = [] := List.drop_eq_nil_of_le (by omega)
        refine ⟨P.length, ?_⟩
        rw [hcur, hnil,
          List.drop_append_of_le_length (Nat.le_refl P.length)]
        simp

theorem fbFoldInv :
    ∀ (ls P : List (List Char)) (st : FBState), fbInv P st →
      fbInv (P ++ ls) (ls.foldl fbStep st) := by
  intro ls
  induction ls with
  | nil => intro P st h; simpa using h
  | cons l ls ih =>
    intro P st h
    have h1 := fbStepInv P st l h
    have h2 := ih (P ++ [l]) (fbStep st l) h1
    simpa using h2

theorem fallbackIsInfix (lines : List (List Char)) (sec : List Char)
    (h : fallbackSearch lines = some sec) :
    ∃ ls2, ls2 <:+: lines ∧ sec = joinNL ls2 := by
  have hinv : fbInv lines (lines.foldl fbStep ⟨[], [], none⟩) := by
    have h0 : fbInv [] (⟨[], [], none⟩ : FBState) :=
      ⟨by intro blk hb; simp at hb, 0, rfl⟩
    simpa using fbFoldInv lines [] ⟨[], [], none⟩ h0
  rcases hinv with ⟨hpot, a, hcur⟩
  have h2 : ((if (lines.foldl fbStep ⟨[], [], none⟩).current ≠ [] ∧
        blockHasKeyword (lines.foldl fbStep ⟨[], [], none⟩).current then
        (lines.foldl fbStep ⟨[], [], none⟩).potential ++
          [(lines.foldl fbStep ⟨[], [], none⟩).current]
      else (lines.foldl fbStep ⟨[], [], none⟩).potential).head?).map joinNL =
      some sec := h
  set st := lines.foldl fbStep (⟨[], [], none⟩ : FBState) with hst
  by_cases hk : st.current ≠ [] ∧ blockHasKeyword st.current
  · rw [if_pos hk] at h2
    cases hpp : st.potential with
    | nil =>
      rw [hpp] at h2
      simp only [List.nil_append, List.head?_cons, Option.map_some',
        Option.some.injEq] at h2
      refine ⟨st.current, ?_, h2.symm⟩
      rw [hcur]
      exact (dropIsSuf lines a).isInfix
    | cons b bs =>
      rw [hpp] at h2
      simp only [List.cons_append, List.head?_cons, Option.map_some',
        Option.some.injEq] at h2
      exact ⟨b, hpot b (by rw [hpp]; exact List.mem_cons_self b bs), h2.symm⟩
  · rw [if_neg hk] at h2
    cases hpp : st.potential with
    | nil => rw [hpp] at h2; simp at h2
    | cons b bs =>
      rw [hpp] at h2
      simp only [List.head?_cons, Option.map_some', Option.some.injEq] at h2
      exact ⟨b, hpot b (by rw [hpp]; exact List.mem_cons_self b bs), h2.symm⟩

theorem findSectionInfix (content title sec : List Char)
    (h : find_section content title = Except.ok (some sec)) :
    ∃ ls2, ls2 <:+: splitNL content ∧ sec = joinNL ls2 := by
  simp only [find_section] at h
  cases hss : sectionStart title ((splitNL content).map pyStrip) with
  | none =>
    simp only [hss] at h
    simp only [Except.ok.injEq] at h
    exact fallbackIsInfix (splitNL content) sec h
  | some s =>
    simp only [hss] at h
    by_cases hl : leadingHashes ((splitNL content).getD s []) = 0
    · rw [if_pos hl] at h
      exact absurd h (by simp)
    · rw [if_neg hl] at h
      simp only [Except.ok.injEq, Option.some.injEq] at h
      refine ⟨((splitNL content).drop s).take
        (sectionEnd ((splitNL content).map pyStrip) s
          (leadingHashes ((splitNL content).getD s [])) - s), ?_, h.symm⟩
      exact ((takeIsPre _ _).isInfix).trans (dropIsSuf _ _).isInfix

theorem memFilterOfMapStrip (sec : List Char) (l2 : List Char)
    (h : l2 ∈ ((splitNL sec).map pyStrip).filter qualifiesRow) :
    ∃ l ∈ splitNL sec, l2 = pyStrip l := by
  have h1 : l2 ∈ (splitNL sec).map pyStrip := List.mem_of_mem_filter h
  rcases List.mem_map.mp h1 with ⟨l, hl, heq⟩
  exact ⟨l, hl, heq.symm⟩

/-- C1: zero-fabrication — every section delivered to the extractor (a
section located by find_section through any of its match patterns or the
keyword fallback, or the whole document when nothing was found) is a
contiguous run of lines of the source document, and every emitted record
has as its context the stripped text of one line of that section, hence a
contiguous verbatim substring of the source. -/
theorem claimC1_zero_fabrication (content title sec : List Char)
    (h : located_section content title = Except.ok sec) :
    (∃ ls2, ls2 <:+: splitNL content ∧ sec = joinNL ls2) ∧
    ∀ r ∈ extract_papers_from_section sec,
      (∃ l ∈ splitNL sec, r.context = pyStrip l) ∧ r.context <:+: content := by
  have hsec : ∃ ls2, ls2 <:+: splitNL content ∧ sec = joinNL ls2 := by
    simp only [located_section] at h
    cases hfs : find_section content title with
    | error e => rw [hfs] at h; exact absurd h (by simp)
    | ok o =>
      cases o with
      | none =>
        rw [hfs] at h
        simp only [Except.ok.injEq] at h
        rw [← h]
        exact ⟨splitNL content, List.infix_refl _, (joinCharSplitNL content).symm⟩
      | some s2 =>
        rw [hfs] at h
        simp only [Except.ok.injEq] at h
        rw [← h]
        exact findSectionInfix content title s2 hfs
  refine ⟨hsec, ?_⟩
  intro r hr
  have hloop := papersLoopEq (splitNL sec) []
  simp only [List.nil_append, List.length_nil, Nat.zero_add] at hloop
  rw [extract_papers_from_section, hloop] at hr
  rcases memNumberRowsContext _ 1 r hr with ⟨l2, hl2, hctx⟩
  rcases memFilterOfMapStrip sec l2 hl2 with ⟨l, hl, hl2eq⟩
  refine ⟨⟨l, hl, by rw [hctx, hl2eq]⟩, ?_⟩
  have h1 : r.context <:+: l := by
    rw [hctx, hl2eq]; exact pyStripIsInfix l
  have h2 : l <:+: sec := memSplitIsInfix '\n' sec l hl
  have h3 : sec <:+: content := by
    rcases hsec with ⟨ls2, hinf, heq⟩
    have h4 := joinInfixMono '\n' ls2 (splitNL content) hinf
    rw [joinCharSplitNL content] at h4
    rw [heq]
    exact h4
  exact (h1.trans h2).trans h3

/-- C1 witness document: an exact heading match whose section covers the
whole two-line document and contains one qualifying row. -/
def c1Doc : List Char := "# S\n[a](b)|x".toList

/-- C1: witness — the zero-fabrication theorem applied at a concrete
document whose located section is the whole document. -/
theorem claimC1_witness :
    located_section c1Doc "S".toList = Except.ok c1Doc ∧
    ((∃ ls2, ls2 <:+: splitNL c1Doc ∧ c1Doc = joinNL ls2) ∧
     ∀ r ∈ extract_papers_from_section c1Doc,
       (∃ l ∈ splitNL c1Doc, r.context = pyStrip l) ∧ r.context <:+: c1Doc) :=
  ⟨by decide, claimC1_zero_fabrication c1Doc "S".toList c1Doc (by decide)⟩

theorem getDMem (ls : List (List Char)) (i : Nat) (h : i < ls.length) :
    ls.getD i [] ∈ ls := by
  induction ls generalizing i with
  | nil => simp at h
  | cons l ls ih =>
    cases i with
    | zero => simp
    | succ i2 =>
      simp only [List.getD_cons_succ]
      exact List.mem_cons_of_mem l (ih i2 (Nat.lt_of_succ_lt_succ h))

/-- C3 counterexample document: the heading line carrying the exact title
match is indented, so the Python start-level computation (run against the
unstripped line) fails and find_section raises AttributeError instead of
returning the heading-delimited range. -/
theorem claimC3_counterexample :
    (∃ l ∈ (splitNL "  # T".toList).map pyStrip, fsPat1 "T".toList l = true) ∧
    find_section "  # T".toList "T".toList = Except.error () := by
  exact ⟨by decide, by decide⟩

/-- C3 (amended): when some stripped line matches the exact-heading pattern
for the title, and the first such line has no leading whitespace (its
unstripped text starts with a hash, so the level computation succeeds),
find_section returns the join of the line range that starts at that line
and ends just before the first later stripped line that is a heading of
level at most the start level, or at end-of-document if there is none. -/
theorem claimC3_exact_heading (content title : List Char) (s : Nat)
    (hs : s < (splitNL content).length)
    (hmatch : fsPat1 title (((splitNL content).map pyStrip).getD s []) = true)
    (hleast : ∀ j, j < s → fsPat1 title (((splitNL content).map pyStrip).getD j []) = false)
    (hhash : 0 < leadingHashes ((splitNL content).getD s [])) :
    ∃ e, find_section content title =
        Except.ok (some (joinNL (((splitNL content).drop s).take (e - s)))) ∧
      s < e ∧ e ≤ (splitNL content).length ∧
      (∀ j, s < j → j < e →
        endsSection (leadingHashes ((splitNL content).getD s []))
          (((splitNL content).map pyStrip).getD j []) = false) ∧
      (e < (splitNL content).length →
        endsSection (leadingHashes ((splitNL content).getD s []))
          (((splitNL content).map pyStrip).getD e []) = true) := by
  set lines := splitNL content with hlines
  set stripped := lines.map pyStrip with hstripped
  set lvl := leadingHashes (lines.getD s []) with hlvldef
  have hslen : stripped.length = lines.length := List.length_map lines pyStrip
  have hfi : firstIdx (fsPat1 title) stripped = some s :=
    firstIdxAt (fsPat1 title) stripped s (by omega) hmatch hleast
  have hstart : sectionStart title stripped = some s := by
    simp only [sectionStart, hfi]
  have hlvl : ¬ lvl = 0 := by omega
  have hout : find_section content title =
      Except.ok (some (joinNL ((lines.drop s).take (sectionEnd stripped s lvl - s)))) := by
    simp only [find_section, ← hlines, ← hstripped, ← hlvldef, hstart, if_neg hlvl]
  cases hfe : firstIdx (endsSection lvl) (stripped.drop (s + 1)) with
  | some k =>
    have hEnd : sectionEnd stripped s lvl = s + 1 + k := by
      simp [sectionEnd, hfe]
    rcases firstIdxSpec _ _ k hfe with ⟨hk1, hk2, hk3⟩
    rw [List.length_drop] at hk1
    refine ⟨sectionEnd stripped s lvl, hout, by omega, by omega, ?_, ?_⟩
    · intro j hj1 hj2
      rw [hEnd] at hj2
      have h5 := hk3 (j - s - 1) (by omega)
      rw [getDDrop] at h5
      have h6 : s + 1 + (j - s - 1) = j := by omega
      rwa [h6] at h5
    · intro he
      rw [hEnd]
      rw [getDDrop] at hk2
      exact hk2
  | none =>
    have hEnd : sectionEnd stripped s lvl = stripped.length := by
      simp [sectionEnd, hfe]
    refine ⟨sectionEnd stripped s lvl, hout, by omega, by omega, ?_, ?_⟩
    · intro j hj1 hj2
      rw [hEnd] at hj2
      have hmem : stripped.getD j [] ∈ stripped.drop (s + 1) := by
        have hjd : stripped.getD j [] = (stripped.drop (s + 1)).getD (j - s - 1) [] := by
          rw [getDDrop stripped (s + 1) (j - s - 1)]
          congr 1
          omega
        rw [hjd]
        refine getDMem _ _ ?_
        rw [List.length_drop]
        omega
      exact firstIdxNone _ _ hfe _ hmem
    · intro he
      rw [hEnd] at he
      omega

/-- C3 witness document: two sections at level one with a nested level-two
heading inside the first; the exact match at line zero ends just before the
level-one heading at line four. -/
def c3Doc : List Char := "# A\nx\n## B\ny\n# C\nz".toList

/-- C3: witness — the amended exact-heading theorem applied at a concrete
document; its conclusion is witnessed by the evaluation of find_section. -/
theorem claimC3_witness :
    (0 < (splitNL c3Doc).length ∧
     fsPat1 "A".toList (((splitNL c3Doc).map pyStrip).getD 0 []) = true ∧
     0 < leadingHashes ((splitNL c3Doc).getD 0 [])) ∧
    (∃ e, find_section c3Doc "A".toList =
        Except.ok (some (joinNL (((splitNL c3Doc).drop 0).take (e - 0)))) ∧
      0 < e ∧ e ≤ (splitNL c3Doc).length ∧
      (∀ j, 0 < j → j < e →
        endsSection (leadingHashes ((splitNL c3Doc).getD 0 []))
          (((splitNL c3Doc).map pyStrip).getD j []) = false) ∧
      (e < (splitNL c3Doc).length →
        endsSection (leadingHashes ((splitNL c3Doc).getD 0 []))
          (((splitNL c3Doc).map pyStrip).getD e []) = true)) :=
  ⟨⟨by decide, by decide, by decide⟩,
    claimC3_exact_heading c3Doc "A".toList 0 (by decide) (by decide)
      (fun j hj => absurd hj (Nat.not_lt_zero j)) (by decide)⟩

/-!
MsoStripper: clean_mso_attributes and the empty paragraph/div removal of
clean_html_content in scripts/convert_word_html.py.  The parsed document is
modelled as a tree of element, text and comment nodes; the in-place
BeautifulSoup mutations become pure tree transformations.  Both scans of
the Python code iterate over descendants of the root (find_all), so every
phase transforms the children of the root and leaves the root node itself
untouched.
-/

/-- Attribute values of a parsed tag: plain strings, or the list-valued
attributes (the class attribute) that BeautifulSoup represents as lists. -/
inductive AttrV where
  | str (v : List Char)
  | list (vs : List (List Char))
deriving DecidableEq

mutual

/-- One node of the parsed document tree. -/
inductive HNode where
  | text (s : List Char)
  | comment (s : List Char)
  | elem (name : List Char) (attrs : List (List Char × AttrV)) (children : HForest)

/-- The children sequence of a node. -/
inductive HForest where
  | nil
  | cons (hd : HNode) (tl : HForest)

end

/-- Lower-casing of a string, for the case-insensitive marker tests. -/
def lowerStr (s : List Char) : List Char := s.map Char.toLower

/-- Marker fragments looked for inside string attribute values. -/
def msoValuePats : List (List Char) :=
  ["mso-".toList, "microsoft".toList, "word".toList, "office".toList]

/-- Marker fragments looked for inside class-list items (note: these use
the bare mso marker, unlike the string-value patterns). -/
def msoClassPats : List (List Char) :=
  ["mso".toList, "microsoft".toList, "word".toList, "office".toList]

/-- Marker fragments looked for inside style blocks (three patterns only,
without the office marker). -/
def msoStylePats : List (List Char) :=
  ["mso-".toList, "microsoft".toList, "word".toList]

/-- Test of a string attribute value against the vendor markers. -/
def badAttrValue (v : List Char) : Bool :=
  msoValuePats.any (fun p => strContains p (lowerStr v))

/-- Test of one class-list item against the vendor markers. -/
def badClassItem (c : List Char) : Bool :=
  msoClassPats.any (fun p => strContains p (lowerStr c))

/-- Cleaning of one attribute entry: a marked string value removes the
attribute; a list value is filtered, kept unchanged when nothing was
filtered, kept filtered when something remains, and removed when the
filter leaves nothing. -/
def cleanAttrEntry : List Char × AttrV → Option (List Char × AttrV)
  | (n, AttrV.str v) => if badAttrValue v then none else some (n, AttrV.str v)
  | (n, AttrV.list cs) =>
    if cs.filter (fun c => !(badClassItem c)) = cs then some (n, AttrV.list cs)
    else if cs.filter (fun c => !(badClassItem c)) = [] then none
    else some (n, AttrV.list (cs.filter (fun c => !(badClassItem c))))

/-- Cleaning of a whole attribute dictionary. -/
def cleanAttrs (a : List (List Char × AttrV)) : List (List Char × AttrV) :=
  a.filterMap cleanAttrEntry

mutual

/-- Attribute cleaning applied to a node and all its descendants. -/
def cleanAttrsNode : HNode → HNode
  | HNode.text s => HNode.text s
  | HNode.comment s => HNode.comment s
  | HNode.elem n a cs => HNode.elem n (cleanAttrs a) (cleanAttrsForest cs)

/-- Attribute cleaning applied to every node of a forest. -/
def cleanAttrsForest : HForest → HForest
  | HForest.nil => HForest.nil
  | HForest.cons c cs => HForest.cons (cleanAttrsNode c) (cleanAttrsForest cs)

end

/-- The vendor namespace markers of the element-removal phase: tag names
starting with v:, o: or w:. -/
def vendorNamePre : List (List Char) := ["v:".toList, "o:".toList, "w:".toList]

/-- Test of a node for a vendor-namespace element name. -/
def isVendorElem : HNode → Bool
  | HNode.elem n _ _ => vendorNamePre.any (fun p => p.isPrefixOf n)
  | _ => false

mutual

/-- The BeautifulSoup string accessor: the text of the single
character-data child, following single-child chains; none otherwise. -/
def stringOf : HNode → Option (List Char)
  | HNode.text s => some s
  | HNode.comment s => some s
  | HNode.elem _ _ cs => stringOfF cs

/-- String accessor on a children sequence: defined only for a singleton. -/
def stringOfF : HForest → Option (List Char)
  | HForest.cons c HForest.nil => stringOf c
  | _ => none

end

/-- Test for a style element whose string is truthy (non-empty) and holds
one of the style marker fragments. -/
def markedStyle (nd : HNode) : Bool :=
  match nd with
  | HNode.elem n _ _ =>
    n = "style".toList &&
      (match stringOf nd with
       | some s => !(s.isEmpty) && msoStylePats.any (fun p => strContains p (lowerStr s))
       | none => false)
  | _ => false

mutual

/-- Removal of the nodes rejected by keep, recursively; the model of a
find_all plus decompose scan over all descendants. -/
def filterNode (keep : HNode → Bool) : HNode → HNode
  | HNode.text s => HNode.text s
  | HNode.comment s => HNode.comment s
  | HNode.elem n a cs => HNode.elem n a (filterForest keep cs)

/-- Forest version of filterNode: rejected nodes disappear with their
subtrees, kept nodes are filtered recursively. -/
def filterForest (keep : HNode → Bool) : HForest → HForest
  | HForest.nil => HForest.nil
  | HForest.cons c cs =>
    if keep c then HForest.cons (filterNode keep c) (filterForest keep cs)
    else filterForest keep cs

end

mutual

/-- The get_text test of the empty-element removal: some descendant
character data holds a non-whitespace character. -/
def hasRealText : HNode → Bool
  | HNode.text s => s.any (fun c => !(pyIsSpace c))
  | HNode.comment s => s.any (fun c => !(pyIsSpace c))
  | HNode.elem _ _ cs => forestHasText cs

/-- Forest version of hasRealText. -/
def forestHasText : HForest → Bool
  | HForest.nil => false
  | HForest.cons c cs => hasRealText c || forestHasText cs

end

/-- The paragraph and division tag names of the empty-element removal. -/
def isPDivName (n : List Char) : Bool := n = "p".toList || n = "div".toList

/-- Keep predicate of the vendor-element removal. -/
def keepVendorFree (nd : HNode) : Bool := !(isVendorElem nd)

/-- Keep predicate of the marked-style removal. -/
def keepStyleClean (nd : HNode) : Bool := !(markedStyle nd)

/-- Keep predicate of the empty paragraph/div removal. -/
def keepNonEmptyPDiv : HNode → Bool
  | HNode.elem n _ cs => !(isPDivName n && !(forestHasText cs))
  | _ => true

/-- Embedding of clean_mso_attributes of scripts/convert_word_html.py: the
attribute cleaning over all descendants, then the removal of
vendor-namespace elements, then the removal of marked style blocks. -/
def clean_mso_attributes (root : HNode) : HNode :=
  match root with
  | HNode.elem n a cs =>
    HNode.elem n a
      (filterForest keepStyleClean (filterForest keepVendorFree (cleanAttrsForest cs)))
  | x => x

/-- Embedding of the empty paragraph/div removal of clean_html_content:
every descendant p or div without visible text disappears. -/
def remove_empty_elements (root : HNode) : HNode :=
  match root with
  | HNode.elem n a cs => HNode.elem n a (filterForest keepNonEmptyPDiv cs)
  | x => x

/-- The MsoStripper cleaning pass named by the specification:
clean_mso_attributes followed by the empty paragraph/div removal. -/
def mso_clean_pass (root : HNode) : HNode :=
  remove_empty_elements (clean_mso_attributes root)

/-- Character-data test. -/
def isTextual : HNode → Bool
  | HNode.text _ => true
  | HNode.comment _ => true
  | HNode.elem _ _ _ => false

/-- A forest of character data only. -/
def forestTextual : HForest → Bool
  | HForest.nil => true
  | HForest.cons c cs => isTextual c && forestTextual cs

mutual

/-- Well-formedness of parsed trees: every style element holds only
character data (HTML parsers treat style content as raw text, so a parsed
style element cannot have element children). -/
def styleTextOnlyN : HNode → Bool
  | HNode.text _ => true
  | HNode.comment _ => true
  | HNode.elem n _ cs => (!(n = "style".toList) || forestTextual cs) && styleTextOnlyF cs

/-- Forest version of styleTextOnlyN. -/
def styleTextOnlyF : HForest → Bool
  | HForest.nil => true
  | HForest.cons c cs => styleTextOnlyN c && styleTextOnlyF cs

end

/-- The parsed-tree well-formedness at the root: every style element among
the descendants holds only character data. -/
def styleTextOnlyRoot : HNode → Bool
  | HNode.elem _ _ cs => styleTextOnlyF cs
  | _ => true

mutual

/-- Every node of the subtree (the node itself included) satisfies p. -/
def allNodesN (p : HNode → Bool) : HNode → Bool
  | HNode.text s => p (HNode.text s)
  | HNode.comment s => p (HNode.comment s)
  | HNode.elem n a cs => p (HNode.elem n a cs) && allNodesF p cs

/-- Forest version of allNodesN. -/
def allNodesF (p : HNode → Bool) : HForest → Bool
  | HForest.nil => true
  | HForest.cons c cs => allNodesN p c && allNodesF p cs

end

/-- Node-local predicate: the attribute dictionary is a fixed point of the
attribute cleaning. -/
def attrsGood : HNode → Bool
  | HNode.elem _ a _ => decide (cleanAttrs a = a)
  | _ => true

/-!
Lemmas for the MsoStripper idempotence claim.
-/

theorem listFilterIdem (p : List Char → Bool) (l : List (List Char)) :
    (l.filter p).filter p = l.filter p := by
  induction l with
  | nil => rfl
  | cons x xs ih =>
    by_cases hx : p x
    · simp [List.filter_cons, hx, ih]
    · simp [List.filter_cons, hx, ih]

theorem cleanAttrEntryFix (e e2 : List Char × AttrV)
    (h : cleanAttrEntry e = some e2) : cleanAttrEntry e2 = some e2 := by
  obtain ⟨n, v⟩ := e
  cases v with
  | str v =>
    by_cases hb : badAttrValue v
    · simp [cleanAttrEntry, hb] at h
    · simp only [cleanAttrEntry, hb, Bool.false_eq_true, if_false,
        Option.some.injEq] at h
      rw [← h]
      simp [cleanAttrEntry, hb]
  | list cs =>
    by_cases h1 : cs.filter (fun c => !(badClassItem c)) = cs
    · simp only [cleanAttrEntry, if_pos h1, Option.some.injEq] at h
      rw [← h]
      simp only [cleanAttrEntry, if_pos h1]
    · by_cases h2 : cs.filter (fun c => !(badClassItem c)) = []
      · rw [show cleanAttrEntry (n, AttrV.list cs) = none by
          simp only [cleanAttrEntry]
          rw [if_neg h1, if_pos h2]] at h
        exact Option.noConfusion h
      · have hval : cleanAttrEntry (n, AttrV.list cs) =
            some (n, AttrV.list (cs.filter (fun c => !(badClassItem c)))) := by
          simp only [cleanAttrEntry]
          rw [if_neg h1, if_neg h2]
        rw [hval, Option.some.injEq] at h
        rw [← h]
        have hidem := listFilterIdem (fun c => !(badClassItem c)) cs
        simp only [cleanAttrEntry]
        rw [if_pos hidem]

theorem bAnd {a b : Bool} (h : (a && b) = true) : a = true ∧ b = true := by
  cases a <;> cases b <;> simp_all

theorem cleanAttrsIdem (a : List (List Char × AttrV)) :
    cleanAttrs (cleanAttrs a) = cleanAttrs a := by
  induction a with
  | nil => rfl
  | cons e a ih =>
    cases he : cleanAttrEntry e with
    | none => simp only [cleanAttrs, List.filterMap_cons, he] at ih ⊢; exact ih
    | some e2 =>
      simp only [cleanAttrs, List.filterMap_cons, he, cleanAttrEntryFix e e2 he] at ih ⊢
      rw [ih]

theorem allNodesNImpliesP (p : HNode → Bool) (nd : HNode)
    (h : allNodesN p nd = true) : p nd = true := by
  cases nd with
  | text s => exact h
  | comment s => exact h
  | elem n a cs => exact (bAnd h).1

mutual

theorem attrsGoodCleanN : ∀ nd, allNodesN attrsGood (cleanAttrsNode nd) = true
  | HNode.text s => rfl
  | HNode.comment s => rfl
  | HNode.elem n a cs => by
    simp only [cleanAttrsNode, allNodesN, Bool.and_eq_true]
    exact ⟨by simp [attrsGood, cleanAttrsIdem], attrsGoodCleanF cs⟩

theorem attrsGoodCleanF : ∀ cs, allNodesF attrsGood (cleanAttrsForest cs) = true
  | HForest.nil => rfl
  | HForest.cons c cs => by
    simp only [cleanAttrsForest, allNodesF, Bool.and_eq_true]
    exact ⟨attrsGoodCleanN c, attrsGoodCleanF cs⟩

end

mutual

theorem cleanAttrsIdN : ∀ nd, allNodesN attrsGood nd = true → cleanAttrsNode nd = nd
  | HNode.text s => fun _ => rfl
  | HNode.comment s => fun _ => rfl
  | HNode.elem n a cs => by
    intro h
    rcases bAnd h with ⟨h1, h2⟩
    have ha : cleanAttrs a = a := of_decide_eq_true h1
    simp only [cleanAttrsNode, ha, cleanAttrsIdF cs h2]

theorem cleanAttrsIdF : ∀ cs, allNodesF attrsGood cs = true → cleanAttrsForest cs = cs
  | HForest.nil => fun _ => rfl
  | HForest.cons c cs => by
    intro h
    rcases bAnd h with ⟨h1, h2⟩
    simp only [cleanAttrsForest, cleanAttrsIdN c h1, cleanAttrsIdF cs h2]

end

mutual

theorem filterIdN (keep : HNode → Bool) :
    ∀ nd, allNodesN keep nd = true → filterNode keep nd = nd
  | HNode.text s => fun _ => rfl
  | HNode.comment s => fun _ => rfl
  | HNode.elem n a cs => by
    intro h
    rcases bAnd h with ⟨_, h2⟩
    simp only [filterNode, filterIdF keep cs h2]

theorem filterIdF (keep : HNode → Bool) :
    ∀ cs, allNodesF keep cs = true → filterForest keep cs = cs
  | HForest.nil => fun _ => rfl
  | HForest.cons c cs => by
    intro h
    rcases bAnd h with ⟨h1, h2⟩
    have hk : keep c = true := allNodesNImpliesP keep c h1
    simp only [filterForest, if_pos hk, filterIdN keep c h1, filterIdF keep cs h2]

end

mutual

theorem allNodesLocalFilterN (p keep : HNode → Bool)
    (hp : ∀ n a cs cs2, p (HNode.elem n a cs) = p (HNode.elem n a cs2)) :
    ∀ nd, allNodesN p nd = true → allNodesN p (filterNode keep nd) = true
  | HNode.text s => fun h => h
  | HNode.comment s => fun h => h
  | HNode.elem n a cs => by
    intro h
    rcases bAnd h with ⟨h1, h2⟩
    simp only [filterNode, allNodesN, Bool.and_eq_true]
    exact ⟨by rw [hp n a (filterForest keep cs) cs]; exact h1,
      allNodesLocalFilterF p keep hp cs h2⟩

theorem allNodesLocalFilterF (p keep : HNode → Bool)
    (hp : ∀ n a cs cs2, p (HNode.elem n a cs) = p (HNode.elem n a cs2)) :
    ∀ cs, allNodesF p cs = true → allNodesF p (filterForest keep cs) = true
  | HForest.nil => fun _ => rfl
  | HForest.cons c cs => by
    intro h
    rcases bAnd h with ⟨h1, h2⟩
    by_cases hk : keep c
    · simp only [filterForest, if_pos hk, allNodesF, Bool.and_eq_true]
      exact ⟨allNodesLocalFilterN p keep hp c h1, allNodesLocalFilterF p keep hp cs h2⟩
    · simp only [filterForest, if_neg hk]
      exact allNodesLocalFilterF p keep hp cs h2

end

mutual

theorem stableEstabN (keep : HNode → Bool)
    (hstab : ∀ n a cs, keep (HNode.elem n a (filterForest keep cs)) = keep (HNode.elem n a cs)) :
    ∀ nd, keep nd = true → allNodesN keep (filterNode keep nd) = true
  | HNode.text s => fun h => h
  | HNode.comment s => fun h => h
  | HNode.elem n a cs => by
    intro h
    simp only [filterNode, allNodesN, Bool.and_eq_true]
    exact ⟨by rw [hstab n a cs]; exact h, stableEstabF keep hstab cs⟩

theorem stableEstabF (keep : HNode → Bool)
    (hstab : ∀ n a cs, keep (HNode.elem n a (filterForest keep cs)) = keep (HNode.elem n a cs)) :
    ∀ cs, allNodesF keep (filterForest keep cs) = true
  | HForest.nil => rfl
  | HForest.cons c cs => by
    by_cases hk : keep c
    · simp only [filterForest, if_pos hk, allNodesF, Bool.and_eq_true]
      exact ⟨stableEstabN keep hstab c hk, stableEstabF keep hstab cs⟩
    · simp only [filterForest, if_neg hk]
      exact stableEstabF keep hstab cs

end

mutual

theorem hasTextFilterN :
    ∀ nd, hasRealText (filterNode keepNonEmptyPDiv nd) = hasRealText nd
  | HNode.text s => rfl
  | HNode.comment s => rfl
  | HNode.elem n a cs => by
    simp only [filterNode, hasRealText]
    exact hasTextFilterF cs

theorem hasTextFilterF :
    ∀ cs, forestHasText (filterForest keepNonEmptyPDiv cs) = forestHasText cs
  | HForest.nil => rfl
  | HForest.cons c cs => by
    by_cases hk : keepNonEmptyPDiv c
    · simp only [filterForest, if_pos hk, forestHasText, hasTextFilterN c,
        hasTextFilterF cs]
    · have hct : hasRealText c = false := by
        cases c with
        | text s => exact absurd rfl hk
        | comment s => exact absurd rfl hk
        | elem n a cs0 =>
          have h2 : (isPDivName n && !(forestHasText cs0)) = true := by
            have := Bool.not_eq_true _ ▸ hk
            cases hval : (isPDivName n && !(forestHasText cs0)) with
            | true => rfl
            | false => exact absurd (by simp [keepNonEmptyPDiv, hval]) hk
          rcases bAnd h2 with ⟨_, h3⟩
          simp only [hasRealText]
          cases hft : forestHasText cs0 with
          | true => rw [hft] at h3; exact absurd h3 (by simp)
          | false => rfl
      simp only [filterForest, if_neg hk, forestHasText, hct, hasTextFilterF cs,
        Bool.false_or]

end

theorem keepPDivStab : ∀ n a cs,
    keepNonEmptyPDiv (HNode.elem n a (filterForest keepNonEmptyPDiv cs)) =
      keepNonEmptyPDiv (HNode.elem n a cs) := by
  intro n a cs
  simp only [keepNonEmptyPDiv, hasTextFilterF cs]

theorem keepVendorStab : ∀ n a cs,
    keepVendorFree (HNode.elem n a (filterForest keepVendorFree cs)) =
      keepVendorFree (HNode.elem n a cs) := by
  intro n a cs
  rfl

theorem filterNodeTextual (keep : HNode → Bool) (nd : HNode)
    (h : isTextual nd = true) : filterNode keep nd = nd := by
  cases nd with
  | text s => rfl
  | comment s => rfl
  | elem n a cs => exact absurd h (by simp [isTextual])

theorem keepTrueOnTextual (nd : HNode) (h : isTextual nd = true) :
    keepVendorFree nd = true ∧ keepStyleClean nd = true ∧ keepNonEmptyPDiv nd = true := by
  cases nd with
  | text s => exact ⟨rfl, rfl, rfl⟩
  | comment s => exact ⟨rfl, rfl, rfl⟩
  | elem n a cs => exact absurd h (by simp [isTextual])

theorem textualFilterF (keep : HNode → Bool)
    (htext : ∀ nd, isTextual nd = true → keep nd = true) :
    ∀ cs, forestTextual cs = true → filterForest keep cs = cs
  | HForest.nil => fun _ => rfl
  | HForest.cons c cs => by
    intro h
    rcases bAnd h with ⟨h1, h2⟩
    simp only [filterForest, if_pos (htext c h1), filterNodeTextual keep c h1,
      textualFilterF keep htext cs h2]

theorem textualCleanAttrsF :
    ∀ cs, forestTextual cs = true → cleanAttrsForest cs = cs
  | HForest.nil => fun _ => rfl
  | HForest.cons c cs => by
    intro h
    rcases bAnd h with ⟨h1, h2⟩
    have hc : cleanAttrsNode c = c := by
      cases c with
      | text s => rfl
      | comment s => rfl
      | elem n a cs0 => exact absurd h1 (by simp [isTextual])
    simp only [cleanAttrsForest, hc, textualCleanAttrsF cs h2]

theorem forestTextualFilter (keep : HNode → Bool) :
    ∀ cs, forestTextual cs = true → forestTextual (filterForest keep cs) = true
  | HForest.nil => fun h => h
  | HForest.cons c cs => by
    intro h
    rcases bAnd h with ⟨h1, h2⟩
    by_cases hk : keep c
    · simp only [filterForest, if_pos hk, forestTextual, Bool.and_eq_true]
      refine ⟨?_, forestTextualFilter keep cs h2⟩
      rw [filterNodeTextual keep c h1]
      exact h1
    · simp only [filterForest, if_neg hk]
      exact forestTextualFilter keep cs h2

theorem keepStyleNonStyle (n : List Char) (a : List (List Char × AttrV))
    (cs : HForest) (h : ¬ n = "style".toList) :
    keepStyleClean (HNode.elem n a cs) = true := by
  simp only [keepStyleClean, markedStyle, Bool.not_eq_true']
  cases hn : decide (n = "style".toList) with
  | true => exact absurd (of_decide_eq_true hn) h
  | false => rfl

theorem keepAnyTextual (keep : HNode → Bool)
    (hv : keep = keepVendorFree ∨ keep = keepStyleClean ∨ keep = keepNonEmptyPDiv) :
    ∀ nd, isTextual nd = true → keep nd = true := by
  intro nd h
  rcases keepTrueOnTextual nd h with ⟨h1, h2, h3⟩
  rcases hv with hh | hh | hh <;> rw [hh]
  · exact h1
  · exact h2
  · exact h3

theorem keepStyleStabTextual (keep : HNode → Bool)
    (htext : ∀ nd, isTextual nd = true → keep nd = true)
    (n : List Char) (a : List (List Char × AttrV)) (cs : HForest)
    (hsty : n = "style".toList → forestTextual cs = true) :
    keepStyleClean (HNode.elem n a (filterForest keep cs)) =
      keepStyleClean (HNode.elem n a cs) := by
  by_cases hn : n = "style".toList
  · rw [textualFilterF keep htext cs (hsty hn)]
  · rw [keepStyleNonStyle n a _ hn, keepStyleNonStyle n a cs hn]

mutual

theorem styleEstabN :
    ∀ nd, styleTextOnlyN nd = true → keepStyleClean nd = true →
      allNodesN keepStyleClean (filterNode keepStyleClean nd) = true
  | HNode.text s => fun _ h => h
  | HNode.comment s => fun _ h => h
  | HNode.elem n a cs => by
    intro hsty hk
    rcases bAnd hsty with ⟨hs1, hs2⟩
    simp only [filterNode, allNodesN, Bool.and_eq_true]
    constructor
    · rw [keepStyleStabTextual keepStyleClean
        (keepAnyTextual keepStyleClean (Or.inr (Or.inl rfl))) n a cs
        (fun hn => by
          rw [hn] at hs1
          simpa using hs1)]
      exact hk
    · exact styleEstabF cs hs2

theorem styleEstabF :
    ∀ cs, styleTextOnlyF cs = true →
      allNodesF keepStyleClean (filterForest keepStyleClean cs) = true
  | HForest.nil => fun _ => rfl
  | HForest.cons c cs => by
    intro hsty
    rcases bAnd hsty with ⟨hs1, hs2⟩
    by_cases hk : keepStyleClean c
    · simp only [filterForest, if_pos hk, allNodesF, Bool.and_eq_true]
      exact ⟨styleEstabN c hs1 hk, styleEstabF cs hs2⟩
    · simp only [filterForest, if_neg hk]
      exact styleEstabF cs hs2

end

mutual

theorem stylePresEN :
    ∀ nd, styleTextOnlyN nd = true → allNodesN keepStyleClean nd = true →
      allNodesN keepStyleClean (filterNode keepNonEmptyPDiv nd) = true
  | HNode.text s => fun _ h => h
  | HNode.comment s => fun _ h => h
  | HNode.elem n a cs => by
    intro hsty hall
    rcases bAnd hsty with ⟨hs1, hs2⟩
    rcases bAnd hall with ⟨ha1, ha2⟩
    simp only [filterNode, allNodesN, Bool.and_eq_true]
    constructor
    · rw [keepStyleStabTextual keepNonEmptyPDiv
        (keepAnyTextual keepNonEmptyPDiv (Or.inr (Or.inr rfl))) n a cs
        (fun hn => by
          rw [hn] at hs1
          simpa using hs1)]
      exact ha1
    · exact stylePresEF cs hs2 ha2

theorem stylePresEF :
    ∀ cs, styleTextOnlyF cs = true → allNodesF keepStyleClean cs = true →
      allNodesF keepStyleClean (filterForest keepNonEmptyPDiv cs) = true
  | HForest.nil => fun _ _ => rfl
  | HForest.cons c cs => by
    intro hsty hall
    rcases bAnd hsty with ⟨hs1, hs2⟩
    rcases bAnd hall with ⟨ha1, ha2⟩
    by_cases hk : keepNonEmptyPDiv c
    · simp only [filterForest, if_pos hk, allNodesF, Bool.and_eq_true]
      exact ⟨stylePresEN c hs1 ha1, stylePresEF cs hs2 ha2⟩
    · simp only [filterForest, if_neg hk]
      exact stylePresEF cs hs2 ha2

end

mutual

theorem styPresCleanN :
    ∀ nd, styleTextOnlyN nd = true → styleTextOnlyN (cleanAttrsNode nd) = true
  | HNode.text s => fun h => h
  | HNode.comment s => fun h => h
  | HNode.elem n a cs => by
    intro h
    rcases bAnd h with ⟨h1, h2⟩
    simp only [cleanAttrsNode, styleTextOnlyN, Bool.and_eq_true]
    constructor
    · by_cases hn : n = "style".toList
      · rw [hn] at h1 ⊢
        simp only [Bool.not_true, Bool.false_or] at h1 ⊢
        have htex : forestTextual cs = true := by simpa using h1
        rw [textualCleanAttrsF cs htex]
        simpa using htex
      · simp only [Bool.or_eq_true, Bool.not_eq_true', decide_eq_false_iff_not]
        exact Or.inl hn
    · exact styPresCleanF cs h2

theorem styPresCleanF :
    ∀ cs, styleTextOnlyF cs = true → styleTextOnlyF (cleanAttrsForest cs) = true
  | HForest.nil => fun h => h
  | HForest.cons c cs => by
    intro h
    rcases bAnd h with ⟨h1, h2⟩
    simp only [cleanAttrsForest, styleTextOnlyF, Bool.and_eq_true]
    exact ⟨styPresCleanN c h1, styPresCleanF cs h2⟩

end

mutual

theorem styPresFilterN (keep : HNode → Bool)
    (htext : ∀ nd, isTextual nd = true → keep nd = true) :
    ∀ nd, styleTextOnlyN nd = true → styleTextOnlyN (filterNode keep nd) = true
  | HNode.text s => fun h => h
  | HNode.comment s => fun h => h
  | HNode.elem n a cs => by
    intro h
    rcases bAnd h with ⟨h1, h2⟩
    simp only [filterNode, styleTextOnlyN, Bool.and_eq_true]
    constructor
    · by_cases hn : n = "style".toList
      · rw [hn] at h1 ⊢
        simp only [Bool.not_true, Bool.false_or] at h1 ⊢
        have htex : forestTextual cs = true := by simpa using h1
        have := forestTextualFilter keep cs htex
        simpa using this
      · simp only [Bool.or_eq_true, Bool.not_eq_true', decide_eq_false_iff_not]
        exact Or.inl hn
    · exact styPresFilterF keep htext cs h2

theorem styPresFilterF (keep : HNode → Bool)
    (htext : ∀ nd, isTextual nd = true → keep nd = true) :
    ∀ cs, styleTextOnlyF cs = true → styleTextOnlyF (filterForest keep cs) = true
  | HForest.nil => fun h => h
  | HForest.cons c cs => by
    intro h
    rcases bAnd h with ⟨h1, h2⟩
    by_cases hk : keep c
    · simp only [filterForest, if_pos hk, styleTextOnlyF, Bool.and_eq_true]
      exact ⟨styPresFilterN keep htext c h1, styPresFilterF keep htext cs h2⟩
    · simp only [filterForest, if_neg hk]
      exact styPresFilterF keep htext cs h2

end

/-- C9: MsoStripper idempotence — on every parsed document tree (modelled
by the well-formedness that style elements carried over from the HTML
parser hold only character data), applying the cleaning pass
(clean_mso_attributes, i.e. attribute cleaning plus vendor-element and
marked-style-block removal, followed by the empty paragraph/div removal of
clean_html_content) twice yields the same tree as applying it once. -/
theorem claimC9_mso_stripper_idempotent (t : HNode) (h : styleTextOnlyRoot t = true) :
    mso_clean_pass (mso_clean_pass t) = mso_clean_pass t := by
  cases t with
  | text s => rfl
  | comment s => rfl
  | elem n a cs =>
    have hsty : styleTextOnlyF cs = true := h
    set X1 := cleanAttrsForest cs with hX1
    set X2 := filterForest keepVendorFree X1 with hX2
    set X3 := filterForest keepStyleClean X2 with hX3
    set Y := filterForest keepNonEmptyPDiv X3 with hY
    have hpass1 : mso_clean_pass (HNode.elem n a cs) = HNode.elem n a Y := rfl
    have sty1 : styleTextOnlyF X1 = true := styPresCleanF cs hsty
    have sty2 : styleTextOnlyF X2 = true :=
      styPresFilterF keepVendorFree (keepAnyTextual _ (Or.inl rfl)) X1 sty1
    have sty3 : styleTextOnlyF X3 = true :=
      styPresFilterF keepStyleClean (keepAnyTextual _ (Or.inr (Or.inl rfl))) X2 sty2
    have hpA : ∀ n2 a2 cs2 cs3,
        attrsGood (HNode.elem n2 a2 cs2) = attrsGood (HNode.elem n2 a2 cs3) :=
      fun _ _ _ _ => rfl
    have ag1 : allNodesF attrsGood X1 = true := attrsGoodCleanF cs
    have ag2 : allNodesF attrsGood X2 = true :=
      allNodesLocalFilterF attrsGood keepVendorFree hpA X1 ag1
    have ag3 : allNodesF attrsGood X3 = true :=
      allNodesLocalFilterF attrsGood keepStyleClean hpA X2 ag2
    have agY : allNodesF attrsGood Y = true :=
      allNodesLocalFilterF attrsGood keepNonEmptyPDiv hpA X3 ag3
    have hpV : ∀ n2 a2 cs2 cs3,
        keepVendorFree (HNode.elem n2 a2 cs2) = keepVendorFree (HNode.elem n2 a2 cs3) :=
      fun _ _ _ _ => rfl
    have vf2 : allNodesF keepVendorFree X2 = true :=
      stableEstabF keepVendorFree keepVendorStab X1
    have vf3 : allNodesF keepVendorFree X3 = true :=
      allNodesLocalFilterF keepVendorFree keepStyleClean hpV X2 vf2
    have vfY : allNodesF keepVendorFree Y = true :=
      allNodesLocalFilterF keepVendorFree keepNonEmptyPDiv hpV X3 vf3
    have sc3 : allNodesF keepStyleClean X3 = true := styleEstabF X2 sty2
    have scY : allNodesF keepStyleClean Y = true := stylePresEF X3 sty3 sc3
    have epY : allNodesF keepNonEmptyPDiv Y = true :=
      stableEstabF keepNonEmptyPDiv keepPDivStab X3
    have hA : cleanAttrsForest Y = Y := cleanAttrsIdF Y agY
    have hV : filterForest keepVendorFree Y = Y := filterIdF keepVendorFree Y vfY
    have hS : filterForest keepStyleClean Y = Y := filterIdF keepStyleClean Y scY
    have hE : filterForest keepNonEmptyPDiv Y = Y := filterIdF keepNonEmptyPDiv Y epY
    rw [hpass1]
    show HNode.elem n a (filterForest keepNonEmptyPDiv (filterForest keepStyleClean
      (filterForest keepVendorFree (cleanAttrsForest Y)))) = HNode.elem n a Y
    rw [hA, hV, hS, hE]

/-- C9 witness tree: a body with a vendor-attributed paragraph holding
text, a vendor-namespace element, a marked style block, and an empty
paragraph. -/
def c9Tree : HNode :=
  HNode.elem "body".toList []
    (HForest.cons
      (HNode.elem "p".toList [("style".toList, AttrV.str "mso-bidi".toList)]
        (HForest.cons (HNode.text "hello".toList) HForest.nil))
      (HForest.cons (HNode.elem "o:p".toList [] HForest.nil)
        (HForest.cons
          (HNode.elem "style".toList []
            (HForest.cons (HNode.text "mso-style-name".toList) HForest.nil))
          (HForest.cons (HNode.elem "p".toList [] HForest.nil) HForest.nil))))

/-- C9: witness — the idempotence theorem applied at a concrete parsed
tree exercising every removal phase. -/
theorem claimC9_witness :
    styleTextOnlyRoot c9Tree = true ∧
    mso_clean_pass (mso_clean_pass c9Tree) = mso_clean_pass c9Tree :=
  ⟨by decide, claimC9_mso_stripper_idempotent c9Tree (by decide)⟩
